import Mathlib

/-!
Verification development for `dynamo/tools/construct_velocity_tree.py` and
`dynamo/external/scribe.py`.

The Python code is shallowly embedded:

* numpy float arrays become matrices over `ℝ` (a size-annotated entry
  function).  numpy's `inf`/`nan` handling after a division
  (`res[np.isinf(res)] = 0; res = np.nan_to_num(res)`) coincides with
  Lean's junk value `x / 0 = 0`, which is noted at each use.
* scipy sparse matrices become a COO-style triple list; `toarray` sums
  duplicate triples, as scipy does.
* node identifiers are `ℤ` (the sentinel parent is `-1`).
* the Python `while` loop of `_get_path` becomes a fuel-indexed recursion;
  the fuel passed by `_get_all_segments` is shown sufficient for
  well-formed trees.
* `adata` becomes a record; `adata.uns["cell_order"]` is a dict in Python,
  so each of its accessed entries is an `Option` field and a missing entry
  raises `KeyError` exactly as a Python dict access would.
* exceptions become an error sum; the state threading makes explicit that
  the only mutation of `adata` happens on the success path.
-/

/-- Python exceptions that the embedded code can raise. -/
inductive PyErr where
  | keyError : String → PyErr
  | indexError : PyErr
  | importError : String → PyErr
deriving DecidableEq

/-- A dense numpy float array: a shape together with an entry function. -/
structure Mat where
  rows : ℕ
  cols : ℕ
  entry : ℕ → ℕ → ℝ

/-- `arr.copy()` — value copy (the embedding is pure, so this is the identity). -/
def Mat.copy (m : Mat) : Mat := m

/-- `arr[r, c] = v` for integer node indices.  The nodes written by the code
are center indices produced by `np.argsort`, hence nonnegative, so `Int.toNat`
is the faithful conversion. -/
def Mat.set (m : Mat) (r c : ℤ) (v : ℝ) : Mat :=
  { m with entry := fun i j => if i = r.toNat ∧ j = c.toNat then v else m.entry i j }

/-- A scipy sparse matrix in coordinate form; duplicate coordinates are
summed by `toarray`, matching scipy. -/
structure SparseMat where
  rows : ℕ
  cols : ℕ
  triples : List (ℕ × ℕ × ℝ)

/-- `sparse.toarray()`. -/
def SparseMat.toarray (s : SparseMat) : Mat :=
  { rows := s.rows, cols := s.cols,
    entry := fun i j =>
      ((s.triples.filter (fun t => decide (t.1 = i ∧ t.2.1 = j))).map
        (fun t => t.2.2)).sum }

/-- The argument of `_compute_center_transition_matrix`: either a dense
ndarray or a scipy sparse matrix (`Union[csr_matrix, np.ndarray]`). -/
inductive MatInput where
  | dense : Mat → MatInput
  | sparse : SparseMat → MatInput

/-- The `issparse`/`toarray` preamble of `_compute_center_transition_matrix`. -/
def densify : MatInput → Mat
  | .dense m => m
  | .sparse s => s.toarray

/-- `np.argmax` over row `i` of `R` (`np.argmax(R, axis=1)[i]`): the first
index attaining the maximum.  numpy raises on an empty row; the embedding
returns `0` there, and every use in the claims has at least one column. -/
noncomputable def argmaxRow (R : Mat) (i : ℕ) : ℕ :=
  (List.range R.cols).foldl (fun best j => if R.entry i j > R.entry i best then j else best) 0

/-- The cluster of cells hard-assigned to center `a`
(`np.where(assignment == a)[0]` as a finite index set). -/
noncomputable def clusterOf (R : Mat) (a : ℕ) : Finset ℕ :=
  (Finset.range R.rows).filter (fun i => argmaxRow R i = a)

/-- The unnormalized center-to-center mass `q` of
`_compute_center_transition_matrix` (`transition[a, b]` before division):
`0` on the diagonal (the `a == b` `continue`), the guarded outer-product sum
otherwise. -/
noncomputable def centerMass (M R : Mat) (a b : ℕ) : ℝ :=
  if a = b then 0
  else if (clusterOf R a).Nonempty ∧ (clusterOf R b).Nonempty then
    ∑ i in clusterOf R a, ∑ j in clusterOf R b, R.entry i a * R.entry j b * M.entry i j
  else 0

/-- `totals[a]`: the row sum of the unnormalized masses, accumulated over all
`b ≠ a` in the double loop. -/
noncomputable def centerTotals (M R : Mat) (a : ℕ) : ℝ :=
  ∑ b in (Finset.range R.cols).filter (fun b => b ≠ a), centerMass M R a b

/-- `_compute_center_transition_matrix(transition_matrix, R)`.
The final `transition / totals` with `res[np.isinf(res)] = 0` and
`np.nan_to_num` maps `q/0` (either `±inf` or `nan`) to `0`, which is exactly
Lean's `q / 0 = 0`. -/
noncomputable def computeCenterTransitionMatrix (transition_matrix : MatInput) (R : Mat) : Mat :=
  let M := densify transition_matrix
  { rows := R.cols, cols := R.cols,
    entry := fun a b => centerMass M R a b / centerTotals M R a }

/-- `np.log1p` followed by `log_transition_matrix[np.isinf(...)] = 0` and
`np.nan_to_num`: for `1 + x > 0` this is `log (1 + x)`; `1 + x = 0` gives
`-inf ↦ 0` and `1 + x < 0` gives `nan ↦ 0`. -/
noncomputable def log1pZ (x : ℝ) : ℝ :=
  if 1 + x ≤ 0 then 0 else Real.log (1 + x)

/-- `np.cumsum` on a list (empty input gives an empty array). -/
def cumsum : List ℝ → List ℝ
  | [] => []
  | x :: xs => x :: (cumsum xs).map (fun y => x + y)

/-- `_calculate_segment_probability(transition_matrix, segments)`:
the cumulative sums of the log1p-transformed entries picked by the edge
pairs. -/
noncomputable def calculateSegmentProbability (transition_matrix : Mat) (segments : List (ℤ × ℤ)) : List ℝ :=
  cumsum (segments.map (fun ab => log1pZ (transition_matrix.entry ab.1.toNat ab.2.toNat)))

/-- Consecutive pairs `(orders[i-1], orders[i])`. -/
def consecutivePairs (l : List ℤ) : List (ℤ × ℤ) := l.zip l.tail

/-- `_get_edges(orders, parents)`.  Python's `if parents:` is falsy both for
`None` and for an empty list, so both select the consecutive-pairs branch. -/
def getEdges (orders : List ℤ) (parents : Option (List ℤ) := none) : List (ℤ × ℤ) :=
  match parents with
  | some ps =>
    if ps.isEmpty then consecutivePairs orders
    else (ps.zip orders).filter (fun pr => decide (pr.1 ≠ -1))
  | none => consecutivePairs orders

/-- The Python dict built by `for child, parent in zip(orders, parents)`:
later bindings of the same key overwrite earlier ones. -/
def buildDict (orders parents : List ℤ) : ℤ → Option ℤ :=
  (orders.zip parents).foldl
    (fun f cp => fun x => if x = cp.1 then some cp.2 else f x) (fun _ => none)

/-- The body of the `while cur not in end_nodes` loop of `_get_path`,
with explicit fuel.  `none` stands both for a `KeyError` on a missing dict
entry and for fuel exhaustion (Python would diverge); for well-formed trees
the fuel supplied below is proved sufficient. -/
def getPathAux (pd : ℤ → Option ℤ) (ends : List ℤ) : ℕ → ℤ → List ℤ → Option (List ℤ)
  | 0, _, _ => none
  | fuel + 1, cur, acc =>
    if cur ∈ ends then some acc
    else
      match pd cur with
      | some p => getPathAux pd ends fuel p (acc ++ [p])
      | none => none

/-- `_get_path(parents_dict, start, end_nodes)`: `none` is Python's `None`
(for a root start) and also the `KeyError`/divergence marker of the loop. -/
def getPath (pd : ℤ → Option ℤ) (start : ℤ) (ends : List ℤ) (fuel : ℕ) : Option (List ℤ) :=
  match pd start with
  | some p => if p = -1 then none else getPathAux pd ends fuel p [start, p]
  | none => none

/-- `leaf_nodes = [node for node in orders if node not in parents]`. -/
def leafNodes (orders parents : List ℤ) : List ℤ :=
  orders.filter (fun n => decide (n ∉ parents))

/-- The keys of `Counter(parents)` in first-occurrence order (Python dicts
preserve insertion order). -/
def firstOccurrences : List ℤ → List ℤ
  | [] => []
  | x :: xs => x :: (firstOccurrences xs).filter (fun y => decide (y ≠ x))

/-- `bifurcation_nodes`: keys of `Counter(parents)` with count `> 1`,
excluding `-1`.  The Python source has a third conjunct
`not (count == 2 and parents_dict == -1)`, which compares a dict with an
int and is therefore identically true; it is dropped here. -/
def bifurcationNodes (parents : List ℤ) : List ℤ :=
  (firstOccurrences parents).filter (fun n => decide (1 < parents.count n ∧ n ≠ -1))

/-- `root_nodes = [node for node in orders if parents_dict[node] == -1]`. -/
def rootNodes (orders parents : List ℤ) : List ℤ :=
  orders.filter (fun n => decide (buildDict orders parents n = some (-1)))

/-- `start_nodes = leaf_nodes + bifurcation_nodes` (computed before the
roots are appended to `end_nodes`, so it sees the original bifurcation
list). -/
def startNodes (orders parents : List ℤ) : List ℤ :=
  leafNodes orders parents ++ bifurcationNodes parents

/-- `end_nodes`: the bifurcation nodes followed by the roots not among
them.  (Python appends the roots to the very list aliased by
`bifurcation_nodes`; since `end_nodes` is only ever used for membership and
the appended roots are tested against the growing list, the two readings
agree up to duplicates, which membership ignores.) -/
def endNodes (orders parents : List ℤ) : List ℤ :=
  bifurcationNodes parents ++
    (rootNodes orders parents).filter (fun n => decide (n ∉ bifurcationNodes parents))

/-- `_get_all_segments(orders, parents)`.  The `filterMap` drops start
nodes whose `getPath` returned `none`: for a root start this matches
Python's `if path is not None` skip, but for the collapsed `KeyError` /
divergence outcomes of `getPath` Python would instead propagate the
exception out of `construct_velocity_tree`.  The embedding is therefore
faithful only on inputs where the traversal loop neither raises nor
diverges — in particular under `TreeHyp`, where those outcomes are proved
unreachable (`getPath_isSome`) — and no theorem below asserts the absence
of `KeyError` on other inputs. -/
def getAllSegments (orders parents : List ℤ) : List (List ℤ) :=
  if (leafNodes orders parents).length = 1 then [orders]
  else
    (startNodes orders parents).filterMap
      (fun n => getPath (buildDict orders parents) n (endNodes orders parents)
        (orders.length + 1))

/-- Stable insertion of `i` into an index list sorted by `key`. -/
def insertByKey (key : ℤ → ℤ) (i : ℤ) : List ℤ → List ℤ
  | [] => [i]
  | j :: rest => if key i ≤ key j then i :: j :: rest else j :: insertByKey key i rest

/-- Stable insertion sort of an index list by `key`. -/
def sortByKey (key : ℤ → ℤ) : List ℤ → List ℤ
  | [] => []
  | i :: rest => insertByKey key i (sortByKey key rest)

/-- `np.argsort(l)`: the indices `0, …, len l - 1` sorted by the value they
point to.  (numpy's default quicksort leaves the order of tied indices
unspecified; the embedding uses the stable order.  The centers order being
sorted is a ranking without ties in the intended inputs.) -/
def argsort (l : List ℤ) : List ℤ :=
  sortByKey (fun i => l.getD i.toNat 0) ((List.range l.length).map Int.ofNat)

/-- One iteration of the winning-direction branch:
`directed_velocity_tree[r, c] = max(velocity_tree[r, c], velocity_tree[c, r]);
directed_velocity_tree[c, r] = 0`. -/
def forwardStep (w : Mat) (acc : Mat) (rc : ℤ × ℤ) : Mat :=
  (acc.set rc.1 rc.2 (max (w.entry rc.1.toNat rc.2.toNat) (w.entry rc.2.toNat rc.1.toNat))).set
    rc.2 rc.1 0

/-- One iteration of the `segment_p[-1] < segment_p_reveresed[-1]` branch:
the mirrored writes. -/
def reverseStep (w : Mat) (acc : Mat) (rc : ℤ × ℤ) : Mat :=
  (acc.set rc.2 rc.1 (max (w.entry rc.1.toNat rc.2.toNat) (w.entry rc.2.toNat rc.1.toNat))).set
    rc.1 rc.2 0

/-- One iteration of the tie branch: both entries are rewritten with their
values from the undirected `velocity_tree`. -/
def tieStep (w : Mat) (acc : Mat) (rc : ℤ × ℤ) : Mat :=
  (acc.set rc.2 rc.1 (w.entry rc.2.toNat rc.1.toNat)).set rc.1 rc.2
    (w.entry rc.1.toNat rc.2.toNat)

/-- The winning-direction branch over a list of edges, in loop order. -/
def writeForward (w : Mat) (d : Mat) (edges : List (ℤ × ℤ)) : Mat :=
  edges.foldl (forwardStep w) d

/-- The losing-direction branch over a list of edges, in loop order. -/
def writeReverse (w : Mat) (d : Mat) (edges : List (ℤ × ℤ)) : Mat :=
  edges.foldl (reverseStep w) d

/-- The tie branch over a list of edges, in loop order. -/
def writeTie (w : Mat) (d : Mat) (edges : List (ℤ × ℤ)) : Mat :=
  edges.foldl (tieStep w) d

/-- One iteration of the `for segment in segments` loop of
`construct_velocity_tree`.  `segment_p[-1]` on an empty score array raises
`IndexError` (a length-`≤ 1` segment), modeled by `none`. -/
noncomputable def applySegment (ctm w d : Mat) (segment : List ℤ) : Option Mat :=
  let edge_pairs := getEdges segment
  let edge_pairs_reversed := getEdges segment.reverse
  match (calculateSegmentProbability ctm edge_pairs).getLast?,
      (calculateSegmentProbability ctm edge_pairs_reversed).getLast? with
  | some pf, some pr =>
    if pf > pr then some (writeForward w d edge_pairs)
    else if pf < pr then some (writeReverse w d edge_pairs)
    else some (writeTie w d edge_pairs)
  | _, _ => none

/-- The whole segment loop, threading the directed tree. -/
noncomputable def processSegments (ctm w : Mat) (d : Mat) : List (List ℤ) → Option Mat
  | [] => some d
  | seg :: rest =>
    match applySegment ctm w d seg with
    | some d2 => processSegments ctm w d2 rest
    | none => none

/-- The accessed entries of the dict `adata.uns["cell_order"]`; a missing
entry is a Python `KeyError`. -/
structure CellOrder where
  R : Option Mat
  centers_order : Option (List ℤ)
  centers_parent : Option (List ℤ)
  centers_minSpanningTree : Option Mat

/-- Lookup in an association list modelling a string-keyed dict. -/
def lookupStr {α : Type} (l : List (String × α)) (k : String) : Option α :=
  (l.find? (fun kv => kv.1 == k)).map (fun kv => kv.2)

/-- Dict assignment `d[k] = v`: replace in place or append. -/
def unsInsert {α : Type} (k : String) (v : α) : List (String × α) → List (String × α)
  | [] => [(k, v)]
  | kv :: rest => if kv.1 = k then (k, v) :: rest else kv :: unsInsert k v rest

/-- The parts of an `AnnData` object read or written by
`construct_velocity_tree`: `adata.obsp` (possibly sparse arrays), the
`"cell_order"` entry of `adata.uns`, and the remaining array-valued `uns`
entries. -/
structure Adata where
  obsp : List (String × MatInput)
  cellOrder : Option CellOrder
  uns : List (String × Mat)

/-- `[adata.uns["cell_order"]["centers_parent"][node] for node in orders]`.
The nodes come from `np.argsort`, hence are nonnegative; an out-of-range
index raises `IndexError`. -/
def parentsOf (centers_parent : List ℤ) (orders : List ℤ) : Option (List ℤ) :=
  orders.mapM (fun node => centers_parent.get? node.toNat)

/-- `construct_velocity_tree(adata, transition_matrix_key)`.

The pair threads the `adata` state: every error branch returns the input
`adata` untouched (the Python function's only mutation is
`adata.uns["directed_velocity_tree"] = directed_velocity_tree` just before
returning).  The reads happen in source order: the two key checks, then
`R`, `centers_order` (line 168, consumed by `argsort`), `centers_parent`
(inside the comprehension of line 169), then `centers_minSpanningTree`. -/
noncomputable def constructVelocityTree (adata : Adata) (transition_matrix_key : String := "pearson") :
    Except PyErr Mat × Adata :=
  match lookupStr adata.obsp (transition_matrix_key ++ "_transition_matrix") with
  | none => (.error (.keyError "Transition matrix not found in anndata."), adata)
  | some transition_matrix =>
    match adata.cellOrder with
    | none => (.error (.keyError "Cell order information not found in anndata."), adata)
    | some co =>
      match co.R with
      | none => (.error (.keyError "R"), adata)
      | some R =>
        match co.centers_order with
        | none => (.error (.keyError "centers_order"), adata)
        | some centers_order =>
          let orders := argsort centers_order
          match co.centers_parent with
          | none => (.error (.keyError "centers_parent"), adata)
          | some centers_parent =>
            match parentsOf centers_parent orders with
            | none => (.error .indexError, adata)
            | some parents =>
              match co.centers_minSpanningTree with
              | none => (.error (.keyError "centers_minSpanningTree"), adata)
              | some velocity_tree =>
                let directed0 := velocity_tree.copy
                let segments := getAllSegments orders parents
                let ctm := computeCenterTransitionMatrix transition_matrix R
                match processSegments ctm velocity_tree directed0 segments with
                | none => (.error .indexError, adata)
                | some directed =>
                  (.ok directed,
                    { adata with uns := unsInsert "directed_velocity_tree" directed adata.uns })

/-! ## The Scribe wrapper (`dynamo/external/scribe.py`)

`scribe` is orchestration over external libraries (Scribe, pandas,
`dynamo.preprocessing.szFactor`, `normalize_data`, `TF_link_gene_chip`).
Those externals are modeled as opaque oracle functions gathered in
`ScribeExt` and quantified universally in the theorems: the claim about
`scribe` (its copy/augment discipline) holds whatever they compute.  `L` is
the type of the expression payload of an `AnnData` object (layers, `var`,
`obs`); `N` is the type of an inferred-network table. -/

/-- The slice of an `AnnData` object that `scribe` observes: cell and gene
counts, the expression payload, and `uns` (whose `"causal_net"` entry holds
a dict of network tables). -/
structure SAnn (L N : Type) where
  n_obs : ℕ
  n_vars : ℕ
  payload : L
  uns : List (String × List (String × N))

/-- Oracles for the external calls made by `scribe`, in source order:
gene filtering (`adata = adata[:, gene_filter_new * gene_filter_tot]`),
cell filtering (`adata = adata[cell_filter, :]`), the size-factor and
normalization block (`szFactor` + the two `normalize_data` layer writes and
the optional `old` layer), `causal_net_dynamics_coupling` (which stores RDI
into the *filtered* object's `uns` and is read back immediately), `CLR`,
and the ENCODE-reference merge/filter block (`pd.read_csv` + `melt` +
`merge` + `TF_link_gene_chip`). -/
structure ScribeExt (L N : Type) where
  scribeInstalled : Bool
  filterGenes : SAnn L N → SAnn L N
  filterCells : SAnn L N → SAnn L N
  normalizeBlock : SAnn L N → SAnn L N
  causalNet : SAnn L N → N
  clr : N → N
  tfLinkFilter : SAnn L N → List (String × N) → N

/-- `scribe(adata, ...)`.  The model tracks the data flow between the two
`AnnData` values of the source: the pre-filter copy `adata_` (line 72,
`adata_ = adata.copy()`) and the local `adata` that is filtered and
normalized in place.  `do_CLR` and the `TF_link_ENCODE_ref is not None`
test keep their roles; pandas-level failures inside the oracles (such as
the invalid `id_names` keyword passed to `melt` on line 133) are not
modeled — the claims about `scribe` are conditional on success. -/
def scribe {L N : Type} (ext : ScribeExt L N) (adata : SAnn L N)
    (do_CLR : Bool := true) (useTFLinkRef : Bool := true) :
    Except PyErr (SAnn L N) :=
  if ¬ ext.scribeInstalled then
    .error (.importError "You need to install the package Scribe.")
  else
    let adata_ := adata
    let a1 := ext.filterGenes adata
    let a2 := ext.filterCells a1
    let a3 := ext.normalizeBlock a2
    let rdi := ext.causalNet a3
    let res1 := [("RDI", rdi)]
    let res2 := if do_CLR then res1 ++ [("CLR", ext.clr rdi)] else res1
    let res3 :=
      if useTFLinkRef then res2 ++ [("filtered", ext.tfLinkFilter a3 res2)] else res2
    .ok { adata_ with uns := unsInsert "causal_net" res3 adata_.uns }

/-! ## Specification-side predicates

These restate the claims' vocabulary independently of the algorithm, so the
theorems below relate the code's lists to them. -/

/-- A leaf of the tree described by `orders`/`parents`: a node that never
occurs as a parent. -/
def IsLeaf (orders parents : List ℤ) (x : ℤ) : Prop := x ∈ orders ∧ x ∉ parents

/-- A bifurcation node: a node (not the sentinel) with at least two
children. -/
def IsBifurcation (parents : List ℤ) (x : ℤ) : Prop := 1 < parents.count x ∧ x ≠ -1

/-- A root: a node whose recorded parent is the sentinel `-1`. -/
def IsRoot (orders parents : List ℤ) (x : ℤ) : Prop :=
  ∃ i, ∃ (h : i < orders.length) (h2 : i < parents.length),
    orders.get ⟨i, h⟩ = x ∧ parents.get ⟨i, h2⟩ = -1

/-- `x` is recorded as the parent of `y`. -/
def IsParentOf (orders parents : List ℤ) (y x : ℤ) : Prop :=
  ∃ i, ∃ (h : i < orders.length) (h2 : i < parents.length),
    orders.get ⟨i, h⟩ = y ∧ parents.get ⟨i, h2⟩ = x

/-- Well-formedness of the `(orders, parents)` encoding of a rooted tree,
as produced by `order_cells`: the arrays are aligned, `orders` lists each
(nonnegative) center exactly once in an order where every parent precedes
its children, and the sentinel parent occurs exactly once. -/
structure TreeHyp (orders parents : List ℤ) : Prop where
  len_eq : orders.length = parents.length
  nodup : orders.Nodup
  nonneg : ∀ x ∈ orders, 0 ≤ x
  topo : ∀ i (h : i < parents.length), parents.get ⟨i, h⟩ = -1 ∨
    ∃ (j : ℕ) (hj : j < orders.length), j < i ∧ orders.get ⟨j, hj⟩ = parents.get ⟨i, h⟩
  rootUnique : ∀ i (hi : i < parents.length), ∀ j (hj : j < parents.length),
    parents.get ⟨i, hi⟩ = -1 → parents.get ⟨j, hj⟩ = -1 → i = j

/-- Exactly one of two float entries is nonzero. -/
def ExactlyOne (x y : ℝ) : Prop := (x ≠ 0 ∧ y = 0) ∨ (x = 0 ∧ y ≠ 0)

/-! ## Basic lemmas -/

/-- Any result of numpy-style argmax folding is the start value or a list
member, dominates every scanned value, and dominates the start value. -/
lemma foldl_argmax_spec (f : ℕ → ℝ) :
    ∀ (l : List ℕ) (b0 : ℕ),
      ((l.foldl (fun best j => if f j > f best then j else best) b0) = b0 ∨
        (l.foldl (fun best j => if f j > f best then j else best) b0) ∈ l) ∧
      (∀ j ∈ l, f j ≤ f (l.foldl (fun best j => if f j > f best then j else best) b0)) ∧
      f b0 ≤ f (l.foldl (fun best j => if f j > f best then j else best) b0) := by
  intro l
  induction l with
  | nil => intro b0; simp
  | cons x xs ih =>
    intro b0
    simp only [List.foldl_cons]
    rcases ih (if f x > f b0 then x else b0) with ⟨hmem, hmax, hstart⟩
    have hb0 : f b0 ≤ f (if f x > f b0 then x else b0) := by
      split
      · exact le_of_lt (by assumption)
      · exact le_refl _
    have hx : f x ≤ f (if f x > f b0 then x else b0) := by
      split
      · exact le_refl _
      · exact le_of_not_lt (by assumption)
    refine ⟨?_, ?_, le_trans hb0 hstart⟩
    · rcases hmem with h | h
      · rw [h]
        split
        · exact Or.inr (List.mem_cons_self _ _)
        · exact Or.inl rfl
      · exact Or.inr (List.mem_cons_of_mem _ h)
    · intro j hj
      rcases List.mem_cons.mp hj with rfl | hj
      · exact le_trans hx hstart
      · exact hmax j hj

/-- `np.argmax(R, axis=1)[i]` picks a column whose entry dominates every
column of row `i`. -/
lemma argmaxRow_max (R : Mat) (i : ℕ) :
    ∀ j, j < R.cols → R.entry i j ≤ R.entry i (argmaxRow R i) := by
  intro j hj
  have := (foldl_argmax_spec (fun j => R.entry i j) (List.range R.cols) 0).2.1
  exact this j (List.mem_range.mpr hj)

/-- The column picked by `np.argmax` is a real column when the row is
nonempty. -/
lemma argmaxRow_lt (R : Mat) (i : ℕ) (h : 0 < R.cols) : argmaxRow R i < R.cols := by
  rcases (foldl_argmax_spec (fun j => R.entry i j) (List.range R.cols) 0).1 with h0 | hm
  · rw [argmaxRow, h0]; exact h
  · exact List.mem_range.mp hm

/-- `getLast?` skips a cons onto a nonempty list. -/
lemma getLast?_cons_of_ne {α : Type} (x : α) (l : List α) (h : l ≠ []) :
    (x :: l).getLast? = l.getLast? := by
  cases l with
  | nil => exact absurd rfl h
  | cons y ys => exact List.getLast?_cons_cons

/-- `getLast?` commutes with `map`. -/
lemma getLast?_map_eq {α β : Type} (f : α → β) :
    ∀ l : List α, (l.map f).getLast? = l.getLast?.map f := by
  intro l
  induction l with
  | nil => rfl
  | cons x xs ih =>
    cases xs with
    | nil => rfl
    | cons y ys =>
      show (f x :: f y :: ys.map f).getLast? = ((x :: y :: ys).getLast?).map f
      rw [List.getLast?_cons_cons, List.getLast?_cons_cons]
      exact ih

/-- `cumsum` preserves length. -/
lemma cumsum_length : ∀ l : List ℝ, (cumsum l).length = l.length := by
  intro l
  induction l with
  | nil => rfl
  | cons x xs ih => simp [cumsum, ih]

/-- The last entry of a numpy cumulative sum is the list sum. -/
lemma cumsum_getLast : ∀ l : List ℝ, l ≠ [] → (cumsum l).getLast? = some l.sum := by
  intro l
  induction l with
  | nil => intro h; exact absurd rfl h
  | cons x xs ih =>
    intro _
    by_cases hxs : xs = []
    · subst hxs; simp [cumsum]
    · have h2 : cumsum xs ≠ [] := by
        intro hc
        exact hxs (List.length_eq_zero.mp (by rw [← cumsum_length xs, hc]; rfl))
      have h3 : (cumsum xs).map (fun z => x + z) ≠ [] := fun hc => h2 (List.map_eq_nil_iff.mp hc)
      show (x :: (cumsum xs).map (fun z => x + z)).getLast? = some (x :: xs).sum
      rw [getLast?_cons_of_ne _ _ h3, getLast?_map_eq, ih hxs]
      simp

/-- Dict lookup after dict assignment finds the assigned value. -/
lemma lookupStr_unsInsert {α : Type} (k : String) (v : α) (l : List (String × α)) :
    lookupStr (unsInsert k v l) k = some v := by
  induction l with
  | nil => simp [unsInsert, lookupStr, List.find?]
  | cons kv rest ih =>
    by_cases h : kv.1 = k
    · simp [unsInsert, h, lookupStr, List.find?]
    · have hbeq : (kv.1 == k) = false := beq_eq_false_iff_ne.mpr h
      simp only [unsInsert, if_neg h, lookupStr, List.find?_cons, hbeq]
      exact ih

/-! ## C2 — the center-level aggregation formula -/

/-- C2: for distinct centers `a ≠ b`, `_compute_center_transition_matrix`
returns the claimed ratio: the numerator is the double sum of
`R[i, a] * R[j, b] * T[i, j]` over the cells hard-assigned to `a` and to
`b` (the assignment maximizes the row of `R`, first conjunct; an empty
cluster contributes an empty sum, i.e. `0`), and the denominator is the sum
of the unnormalized entries of row `a` over all centers `c ≠ a`.  When the
denominator vanishes the code's `inf/nan → 0` cleanup agrees with Lean's
division by zero. -/
theorem center_transition_matrix_is_aggregated_ratio (T : MatInput) (R : Mat) (a b : ℕ)
    (hab : a ≠ b) :
    (∀ i j, j < R.cols → R.entry i j ≤ R.entry i (argmaxRow R i)) ∧
    (computeCenterTransitionMatrix T R).entry a b =
      (∑ i in (Finset.range R.rows).filter (fun i => argmaxRow R i = a),
        ∑ j in (Finset.range R.rows).filter (fun j => argmaxRow R j = b),
          R.entry i a * R.entry j b * (densify T).entry i j) /
      (∑ c in (Finset.range R.cols).filter (fun c => c ≠ a),
        ∑ i in (Finset.range R.rows).filter (fun i => argmaxRow R i = a),
          ∑ j in (Finset.range R.rows).filter (fun j => argmaxRow R j = c),
            R.entry i a * R.entry j c * (densify T).entry i j) := by
  constructor
  · intro i j hj; exact argmaxRow_max R i j hj
  · have hmass : ∀ c, a ≠ c → centerMass (densify T) R a c =
        ∑ i in clusterOf R a, ∑ j in clusterOf R c,
          R.entry i a * R.entry j c * (densify T).entry i j := by
      intro c hac
      rw [centerMass, if_neg hac]
      split
      · rfl
      · rename_i hne
        rcases Decidable.not_and_iff_or_not.mp hne with h | h
        · rw [Finset.not_nonempty_iff_eq_empty.mp h, Finset.sum_empty]
        · rw [Finset.not_nonempty_iff_eq_empty.mp h]
          simp
    have htot : centerTotals (densify T) R a =
        ∑ c in (Finset.range R.cols).filter (fun c => c ≠ a),
          ∑ i in clusterOf R a, ∑ j in clusterOf R c,
            R.entry i a * R.entry j c * (densify T).entry i j := by
      rw [centerTotals]
      refine Finset.sum_congr rfl ?_
      intro c hc
      exact hmass c (Ne.symm (Finset.mem_filter.mp hc).2)
    show centerMass (densify T) R a b / centerTotals (densify T) R a = _
    rw [hmass b hab, htot]
    rfl

/-! ## C6 — invariants of the center transition matrix -/

/-- The unnormalized mass is nonnegative for nonnegative `R` and `T`. -/
lemma centerMass_nonneg (M R : Mat) (a b : ℕ) (ha : a < R.cols) (hb : b < R.cols)
    (hR : ∀ i j, i < R.rows → j < R.cols → 0 ≤ R.entry i j)
    (hT : ∀ i j, i < R.rows → j < R.rows → 0 ≤ M.entry i j) :
    0 ≤ centerMass M R a b := by
  rw [centerMass]
  split
  · exact le_refl 0
  split
  · refine Finset.sum_nonneg ?_
    intro i hi
    refine Finset.sum_nonneg ?_
    intro j hj
    have hi' : i < R.rows := Finset.mem_range.mp (Finset.mem_filter.mp hi).1
    have hj' : j < R.rows := Finset.mem_range.mp (Finset.mem_filter.mp hj).1
    exact mul_nonneg (mul_nonneg (hR i a hi' ha) (hR j b hj' hb)) (hT i j hi' hj')
  · exact le_refl 0

/-- The row total is nonnegative for nonnegative `R` and `T`. -/
lemma centerTotals_nonneg (M R : Mat) (a : ℕ) (ha : a < R.cols)
    (hR : ∀ i j, i < R.rows → j < R.cols → 0 ≤ R.entry i j)
    (hT : ∀ i j, i < R.rows → j < R.rows → 0 ≤ M.entry i j) :
    0 ≤ centerTotals M R a := by
  refine Finset.sum_nonneg ?_
  intro b hb
  exact centerMass_nonneg M R a b ha (Finset.mem_range.mp (Finset.mem_filter.mp hb).1) hR hT

/-- C6: with `R` entries in `[0, 1]` and a nonnegative cell transition
matrix, the center matrix has only finite values (it lives in `ℝ`: the
`inf`/`nan` products of the final division are zeroed by the code, which
the embedding renders as `q / 0 = 0`), all entries nonnegative, zero
diagonal, and each row sums to `1` unless its unnormalized total is `0`,
in which case — and only in that case — the row is identically zero. -/
theorem center_transition_matrix_invariants (T : MatInput) (R : Mat)
    (hR : ∀ i j, i < R.rows → j < R.cols → 0 ≤ R.entry i j ∧ R.entry i j ≤ 1)
    (hT : ∀ i j, i < R.rows → j < R.rows → 0 ≤ (densify T).entry i j) :
    (∀ a b, a < R.cols → b < R.cols → 0 ≤ (computeCenterTransitionMatrix T R).entry a b) ∧
    (∀ a, (computeCenterTransitionMatrix T R).entry a a = 0) ∧
    (∀ a, a < R.cols →
      (∑ b in Finset.range R.cols, (computeCenterTransitionMatrix T R).entry a b = 1) ∨
      (∀ b, b < R.cols → (computeCenterTransitionMatrix T R).entry a b = 0)) ∧
    (∀ a, a < R.cols →
      ((∀ b, b < R.cols → (computeCenterTransitionMatrix T R).entry a b = 0) ↔
        centerTotals (densify T) R a = 0)) := by
  have hR0 : ∀ i j, i < R.rows → j < R.cols → 0 ≤ R.entry i j := fun i j hi hj => (hR i j hi hj).1
  have hentry : ∀ a b, (computeCenterTransitionMatrix T R).entry a b =
      centerMass (densify T) R a b / centerTotals (densify T) R a := fun a b => rfl
  have hdiag : ∀ a, (computeCenterTransitionMatrix T R).entry a a = 0 := by
    intro a
    rw [hentry, centerMass, if_pos rfl, zero_div]
  have hzero_of_tot : ∀ a, a < R.cols → centerTotals (densify T) R a = 0 →
      ∀ b, b < R.cols → (computeCenterTransitionMatrix T R).entry a b = 0 := by
    intro a ha htot b hb
    by_cases hab : a = b
    · rw [← hab]; exact hdiag a
    have hmass0 : centerMass (densify T) R a b = 0 := by
      have := (Finset.sum_eq_zero_iff_of_nonneg (fun c hc =>
        centerMass_nonneg (densify T) R a c ha
          (Finset.mem_range.mp (Finset.mem_filter.mp hc).1) hR0 hT)).mp htot
      exact this b (Finset.mem_filter.mpr ⟨Finset.mem_range.mpr hb, Ne.symm hab⟩)
    rw [hentry, hmass0, zero_div]
  have hrow : ∀ a, a < R.cols → centerTotals (densify T) R a ≠ 0 →
      ∑ b in Finset.range R.cols, (computeCenterTransitionMatrix T R).entry a b = 1 := by
    intro a ha htot
    have hsplit : ∑ b in Finset.range R.cols, centerMass (densify T) R a b =
        centerTotals (densify T) R a := by
      rw [centerTotals]
      have h1 : (Finset.range R.cols).filter (fun b => b ≠ a) =
          (Finset.range R.cols).erase a := by
        ext b; simp [Finset.mem_erase, and_comm]
      rw [h1]
      have h2 : ∑ b in (Finset.range R.cols).erase a, centerMass (densify T) R a b +
          centerMass (densify T) R a a =
          ∑ b in Finset.range R.cols, centerMass (densify T) R a b :=
        Finset.sum_erase_add _ _ (Finset.mem_range.mpr ha)
      have h3 : centerMass (densify T) R a a = 0 := by rw [centerMass, if_pos rfl]
      rw [h3, add_zero] at h2
      exact h2.symm
    calc ∑ b in Finset.range R.cols, (computeCenterTransitionMatrix T R).entry a b
        = (∑ b in Finset.range R.cols, centerMass (densify T) R a b) /
            centerTotals (densify T) R a := by
          rw [Finset.sum_div]
          exact Finset.sum_congr rfl (fun b _ => rfl)
      _ = 1 := by rw [hsplit]; exact div_self htot
  refine ⟨?_, hdiag, ?_, ?_⟩
  · intro a b ha hb
    rw [hentry]
    exact div_nonneg (centerMass_nonneg _ R a b ha hb hR0 hT) (centerTotals_nonneg _ R a ha hR0 hT)
  · intro a ha
    by_cases htot : centerTotals (densify T) R a = 0
    · exact Or.inr (hzero_of_tot a ha htot)
    · exact Or.inl (hrow a ha htot)
  · intro a ha
    constructor
    · intro hall
      by_contra htot
      have h1 := hrow a ha htot
      have h0 : ∑ b in Finset.range R.cols, (computeCenterTransitionMatrix T R).entry a b = 0 :=
        Finset.sum_eq_zero (fun b hb => hall b (Finset.mem_range.mp hb))
      rw [h0] at h1
      exact zero_ne_one h1
    · exact hzero_of_tot a ha

/-- Witness for C6 at a concrete input. -/
theorem center_transition_matrix_invariants_witness :
    (∀ a b, a < (Mat.mk 2 2 fun i j => if i = j then 1 else 0).cols →
      b < (Mat.mk 2 2 fun i j => if i = j then 1 else 0).cols →
      0 ≤ (computeCenterTransitionMatrix (.dense (Mat.mk 2 2 fun _ _ => 0))
        (Mat.mk 2 2 fun i j => if i = j then 1 else 0)).entry a b) ∧
    (∀ a, (computeCenterTransitionMatrix (.dense (Mat.mk 2 2 fun _ _ => 0))
      (Mat.mk 2 2 fun i j => if i = j then 1 else 0)).entry a a = 0) := by
  have h := center_transition_matrix_invariants (.dense (Mat.mk 2 2 fun _ _ => 0))
    (Mat.mk 2 2 fun i j => if i = j then 1 else 0)
    (by intro i j hi hj; refine ⟨?_, ?_⟩ <;> by_cases hij : i = j <;> simp [hij])
    (by intro i j hi hj; norm_num [densify])
  exact ⟨h.1, h.2.1⟩

/-- Witness for C2 at a concrete input. -/
theorem center_transition_matrix_is_aggregated_ratio_witness :
    (computeCenterTransitionMatrix (.dense (Mat.mk 2 2 fun _ _ => 0))
      (Mat.mk 2 2 fun i j => if i = j then 1 else 0)).entry 0 1 =
      (∑ i in (Finset.range 2).filter
          (fun i => argmaxRow (Mat.mk 2 2 fun i j => if i = j then 1 else 0) i = 0),
        ∑ j in (Finset.range 2).filter
          (fun j => argmaxRow (Mat.mk 2 2 fun i j => if i = j then 1 else 0) j = 1),
          (Mat.mk 2 2 fun i j => if i = j then (1:ℝ) else 0).entry i 0 *
            (Mat.mk 2 2 fun i j => if i = j then (1:ℝ) else 0).entry j 1 *
            (densify (.dense (Mat.mk 2 2 fun _ _ => 0))).entry i j) /
      (∑ c in (Finset.range 2).filter (fun c => c ≠ 0),
        ∑ i in (Finset.range 2).filter
          (fun i => argmaxRow (Mat.mk 2 2 fun i j => if i = j then 1 else 0) i = 0),
          ∑ j in (Finset.range 2).filter
            (fun j => argmaxRow (Mat.mk 2 2 fun i j => if i = j then 1 else 0) j = c),
            (Mat.mk 2 2 fun i j => if i = j then (1:ℝ) else 0).entry i 0 *
              (Mat.mk 2 2 fun i j => if i = j then (1:ℝ) else 0).entry j c *
              (densify (.dense (Mat.mk 2 2 fun _ _ => 0))).entry i j) :=
  (center_transition_matrix_is_aggregated_ratio (.dense (Mat.mk 2 2 fun _ _ => 0))
    (Mat.mk 2 2 fun i j => if i = j then 1 else 0) 0 1 (by decide)).2

/-! ## C9 — sparse and dense inputs agree -/

/-- C9: `_compute_center_transition_matrix` on a scipy sparse matrix equals
itself on the densified array: the code's only sparse handling is the
initial `issparse`/`toarray` conversion, after which the two paths are the
same computation. -/
theorem center_transition_matrix_sparse_dense (s : SparseMat) (R : Mat) :
    computeCenterTransitionMatrix (.sparse s) R =
      computeCenterTransitionMatrix (.dense s.toarray) R := rfl

/-! ## C10 — scribe returns the pre-filter copy, augmented -/

/-- C10: whenever `scribe` completes, its result is the copy of the input
taken before gene/cell filtering (line 72), so it keeps the input's
`n_obs`/`n_vars` and payload; the only change is the insertion of
`"causal_net"` into `.uns`, which holds the inferred network dict. -/
theorem scribe_returns_prefilter_copy {L N : Type} (ext : ScribeExt L N) (adata : SAnn L N)
    (do_CLR useTFLinkRef : Bool) (out : SAnn L N)
    (h : scribe ext adata do_CLR useTFLinkRef = .ok out) :
    out.n_obs = adata.n_obs ∧ out.n_vars = adata.n_vars ∧ out.payload = adata.payload ∧
    ∃ res, out.uns = unsInsert "causal_net" res adata.uns ∧
      lookupStr out.uns "causal_net" = some res := by
  rw [scribe] at h
  split at h
  · exact Except.noConfusion h
  · obtain rfl := (Except.ok.inj h).symm
    exact ⟨rfl, rfl, rfl, _, rfl, lookupStr_unsInsert _ _ _⟩

/-- Concrete oracle pack for the scribe witness. -/
def scribeExtW : ScribeExt Unit Unit :=
  { scribeInstalled := true, filterGenes := id, filterCells := id, normalizeBlock := id,
    causalNet := fun _ => (), clr := fun _ => (), tfLinkFilter := fun _ _ => () }

/-- Concrete input for the scribe witness. -/
def sAnnW : SAnn Unit Unit := { n_obs := 3, n_vars := 5, payload := (), uns := [] }

/-- Concrete output for the scribe witness. -/
def sAnnOutW : SAnn Unit Unit :=
  { n_obs := 3, n_vars := 5, payload := (),
    uns := [("causal_net", [("RDI", ()), ("CLR", ()), ("filtered", ())])] }

/-- Witness for C10 at a concrete input. -/
theorem scribe_returns_prefilter_copy_witness :
    sAnnOutW.n_obs = sAnnW.n_obs ∧ sAnnOutW.n_vars = sAnnW.n_vars ∧
    sAnnOutW.payload = sAnnW.payload ∧
    ∃ res, sAnnOutW.uns = unsInsert "causal_net" res sAnnW.uns ∧
      lookupStr sAnnOutW.uns "causal_net" = some res :=
  scribe_returns_prefilter_copy scribeExtW sAnnW true true sAnnOutW rfl

/-! ## The write machinery of the segment loop -/

/-- The edge write for pair `e` touches the (unordered) entry pair
`{u, v}`. -/
def touchesPair (e : ℤ × ℤ) (u v : ℕ) : Prop :=
  (e.1.toNat = u ∧ e.2.toNat = v) ∨ (e.1.toNat = v ∧ e.2.toNat = u)

instance (e : ℤ × ℤ) (u v : ℕ) : Decidable (touchesPair e u v) := by
  unfold touchesPair; infer_instance

/-- An entry set misses any coordinate pair other than its target. -/
lemma Mat.set_entry_ne (m : Mat) (r c : ℤ) (x : ℝ) (u v : ℕ)
    (h : ¬ (u = r.toNat ∧ v = c.toNat)) : (m.set r c x).entry u v = m.entry u v := by
  simp only [Mat.set, if_neg h]

/-- An entry set hits its target. -/
lemma Mat.set_entry_eq (m : Mat) (r c : ℤ) (x : ℝ) :
    (m.set r c x).entry r.toNat c.toNat = x := by
  simp [Mat.set]

/-- A forward write over edges that never touch `{u, v}` leaves the entry
`(u, v)` alone. -/
lemma writeForward_untouched (w : Mat) (u v : ℕ) :
    ∀ (E : List (ℤ × ℤ)) (d : Mat), (∀ e ∈ E, ¬ touchesPair e u v) →
      (writeForward w d E).entry u v = d.entry u v := by
  intro E
  induction E with
  | nil => intro d _; rfl
  | cons e rest ih =>
    intro d hE
    have he := hE e (List.mem_cons_self _ _)
    have h1 : ¬ (u = e.2.toNat ∧ v = e.1.toNat) := by
      intro ⟨h1, h2⟩; exact he (Or.inr ⟨h2.symm, h1.symm⟩)
    have h2 : ¬ (u = e.1.toNat ∧ v = e.2.toNat) := by
      intro ⟨h1, h2⟩; exact he (Or.inl ⟨h1.symm, h2.symm⟩)
    show (writeForward w _ rest).entry u v = d.entry u v
    rw [ih _ (fun f hf => hE f (List.mem_cons_of_mem _ hf))]
    simp only [forwardStep]
    rw [Mat.set_entry_ne _ _ _ _ _ _ h1, Mat.set_entry_ne _ _ _ _ _ _ h2]

/-- A reverse write over edges that never touch `{u, v}` leaves the entry
`(u, v)` alone. -/
lemma writeReverse_untouched (w : Mat) (u v : ℕ) :
    ∀ (E : List (ℤ × ℤ)) (d : Mat), (∀ e ∈ E, ¬ touchesPair e u v) →
      (writeReverse w d E).entry u v = d.entry u v := by
  intro E
  induction E with
  | nil => intro d _; rfl
  | cons e rest ih =>
    intro d hE
    have he := hE e (List.mem_cons_self _ _)
    have h1 : ¬ (u = e.1.toNat ∧ v = e.2.toNat) := by
      intro ⟨h1, h2⟩; exact he (Or.inl ⟨h1.symm, h2.symm⟩)
    have h2 : ¬ (u = e.2.toNat ∧ v = e.1.toNat) := by
      intro ⟨h1, h2⟩; exact he (Or.inr ⟨h2.symm, h1.symm⟩)
    show (writeReverse w _ rest).entry u v = d.entry u v
    rw [ih _ (fun f hf => hE f (List.mem_cons_of_mem _ hf))]
    simp only [reverseStep]
    rw [Mat.set_entry_ne _ _ _ _ _ _ h1, Mat.set_entry_ne _ _ _ _ _ _ h2]

/-- A tie write over edges that never touch `{u, v}` leaves the entry
`(u, v)` alone. -/
lemma writeTie_untouched (w : Mat) (u v : ℕ) :
    ∀ (E : List (ℤ × ℤ)) (d : Mat), (∀ e ∈ E, ¬ touchesPair e u v) →
      (writeTie w d E).entry u v = d.entry u v := by
  intro E
  induction E with
  | nil => intro d _; rfl
  | cons e rest ih =>
    intro d hE
    have he := hE e (List.mem_cons_self _ _)
    have h1 : ¬ (u = e.1.toNat ∧ v = e.2.toNat) := by
      intro ⟨h1, h2⟩; exact he (Or.inl ⟨h1.symm, h2.symm⟩)
    have h2 : ¬ (u = e.2.toNat ∧ v = e.1.toNat) := by
      intro ⟨h1, h2⟩; exact he (Or.inr ⟨h2.symm, h1.symm⟩)
    show (writeTie w _ rest).entry u v = d.entry u v
    rw [ih _ (fun f hf => hE f (List.mem_cons_of_mem _ hf))]
    simp only [tieStep]
    rw [Mat.set_entry_ne _ _ _ _ _ _ h1, Mat.set_entry_ne _ _ _ _ _ _ h2]

/-- Touching is symmetric in the entry pair. -/
lemma touchesPair_symm (e : ℤ × ℤ) (u v : ℕ) (h : touchesPair e u v) : touchesPair e v u := by
  rcases h with ⟨h1, h2⟩ | ⟨h1, h2⟩
  · exact Or.inr ⟨h1, h2⟩
  · exact Or.inl ⟨h1, h2⟩

/-- After all later edges leave the pair alone, a forward write at edge
`(r, c)` fixes both entries of the pair. -/
lemma writeForward_last_touch (w d : Mat) (E1 E2 : List (ℤ × ℤ)) (e : ℤ × ℤ) (u v : ℕ)
    (huv : u ≠ v) (h1 : e.1.toNat = u) (h2 : e.2.toNat = v)
    (hE2 : ∀ f ∈ E2, ¬ touchesPair f u v) :
    (writeForward w d (E1 ++ e :: E2)).entry u v = max (w.entry u v) (w.entry v u) ∧
    (writeForward w d (E1 ++ e :: E2)).entry v u = 0 := by
  have hfold : writeForward w d (E1 ++ e :: E2) =
      writeForward w (forwardStep w (writeForward w d E1) e) E2 := by
    simp [writeForward, List.foldl_append]
  have hsymm : ∀ f ∈ E2, ¬ touchesPair f v u := fun f hf ht => hE2 f hf (touchesPair_symm f v u ht)
  subst h1; subst h2
  constructor
  · rw [hfold, writeForward_untouched w _ _ E2 _ hE2]
    simp only [forwardStep]
    rw [Mat.set_entry_ne _ _ _ _ _ _ (fun hpair => huv hpair.1), Mat.set_entry_eq]
  · rw [hfold, writeForward_untouched w _ _ E2 _ hsymm]
    simp only [forwardStep]
    rw [Mat.set_entry_eq]

/-- After all later edges leave the pair alone, a reversed write at edge
`(r, c)` fixes both entries of the pair. -/
lemma writeReverse_last_touch (w d : Mat) (E1 E2 : List (ℤ × ℤ)) (e : ℤ × ℤ) (u v : ℕ)
    (huv : u ≠ v) (h1 : e.1.toNat = u) (h2 : e.2.toNat = v)
    (hE2 : ∀ f ∈ E2, ¬ touchesPair f u v) :
    (writeReverse w d (E1 ++ e :: E2)).entry v u = max (w.entry u v) (w.entry v u) ∧
    (writeReverse w d (E1 ++ e :: E2)).entry u v = 0 := by
  have hfold : writeReverse w d (E1 ++ e :: E2) =
      writeReverse w (reverseStep w (writeReverse w d E1) e) E2 := by
    simp [writeReverse, List.foldl_append]
  have hsymm : ∀ f ∈ E2, ¬ touchesPair f v u := fun f hf ht => hE2 f hf (touchesPair_symm f v u ht)
  subst h1; subst h2
  constructor
  · rw [hfold, writeReverse_untouched w _ _ E2 _ hsymm]
    simp only [reverseStep]
    rw [Mat.set_entry_ne _ _ _ _ _ _ (fun hpair => huv hpair.2), Mat.set_entry_eq]
  · rw [hfold, writeReverse_untouched w _ _ E2 _ hE2]
    simp only [reverseStep]
    rw [Mat.set_entry_eq]

/-- After all later edges leave the pair alone, a tie write at edge
`(r, c)` restores both entries of the pair from the undirected tree. -/
lemma writeTie_last_touch (w d : Mat) (E1 E2 : List (ℤ × ℤ)) (e : ℤ × ℤ) (u v : ℕ)
    (huv : u ≠ v) (h1 : e.1.toNat = u) (h2 : e.2.toNat = v)
    (hE2 : ∀ f ∈ E2, ¬ touchesPair f u v) :
    (writeTie w d (E1 ++ e :: E2)).entry u v = w.entry u v ∧
    (writeTie w d (E1 ++ e :: E2)).entry v u = w.entry v u := by
  have hfold : writeTie w d (E1 ++ e :: E2) =
      writeTie w (tieStep w (writeTie w d E1) e) E2 := by
    simp [writeTie, List.foldl_append]
  have hsymm : ∀ f ∈ E2, ¬ touchesPair f v u := fun f hf ht => hE2 f hf (touchesPair_symm f v u ht)
  subst h1; subst h2
  constructor
  · rw [hfold, writeTie_untouched w _ _ E2 _ hE2]
    simp only [tieStep]
    rw [Mat.set_entry_eq]
  · rw [hfold, writeTie_untouched w _ _ E2 _ hsymm]
    simp only [tieStep]
    rw [Mat.set_entry_ne _ _ _ _ _ _ (fun hpair => huv hpair.2), Mat.set_entry_eq]

/-- The edge list of a segment has one fewer entry than the segment. -/
lemma consecutivePairs_length (l : List ℤ) : (consecutivePairs l).length = l.length - 1 := by
  simp only [consecutivePairs, List.length_zip, List.length_tail]
  omega

/-- The `k`-th edge of a segment is its `k`-th and `(k+1)`-st nodes. -/
lemma consecutivePairs_get : ∀ (l : List ℤ) (k : ℕ) (hk1 : k + 1 < l.length)
    (hk2 : k < (consecutivePairs l).length),
    (consecutivePairs l).get ⟨k, hk2⟩ =
      (l.get ⟨k, Nat.lt_of_succ_lt hk1⟩, l.get ⟨k + 1, hk1⟩) := by
  intro l
  induction l with
  | nil => intro k hk1 _; exact absurd hk1 (by simp)
  | cons x xs ih =>
    intro k hk1 hk2
    cases xs with
    | nil => simp at hk1
    | cons y ys =>
      cases k with
      | zero => rfl
      | succ k2 =>
        have hk1' : k2 + 1 < (y :: ys).length := by
          simpa using Nat.lt_of_succ_lt_succ hk1
        have hk2' : k2 < (consecutivePairs (y :: ys)).length := by
          rw [consecutivePairs_length] at hk2 ⊢
          simpa using Nat.lt_of_succ_lt_succ hk2
        have hstep : (consecutivePairs (x :: y :: ys)).get ⟨k2 + 1, hk2⟩ =
            (consecutivePairs (y :: ys)).get ⟨k2, hk2'⟩ := rfl
        rw [hstep, ih k2 hk1' hk2']
        rfl

/-- Every member of the edge list arises from a position. -/
lemma consecutivePairs_mem (l : List ℤ) (e : ℤ × ℤ) (he : e ∈ consecutivePairs l) :
    ∃ k, ∃ (hk : k + 1 < l.length),
      e = (l.get ⟨k, Nat.lt_of_succ_lt hk⟩, l.get ⟨k + 1, hk⟩) := by
  rcases List.mem_iff_get.mp he with ⟨⟨k, hk⟩, hget⟩
  have hk1 : k + 1 < l.length := by
    have := consecutivePairs_length l
    omega
  exact ⟨k, hk1, by rw [← hget, consecutivePairs_get l k hk1 hk]⟩

/-- Under injective node images, distinct positions give edges that do not
touch the pair of a given position. -/
lemma consecutive_touch_unique (s : List ℤ) (hnd : (s.map Int.toNat).Nodup)
    (k k2 : ℕ) (hk : k + 1 < s.length) (hk2 : k2 + 1 < s.length) (hne : k2 ≠ k) :
    ¬ touchesPair (s.get ⟨k2, Nat.lt_of_succ_lt hk2⟩, s.get ⟨k2 + 1, hk2⟩)
      (s.get ⟨k, Nat.lt_of_succ_lt hk⟩).toNat (s.get ⟨k + 1, hk⟩).toNat := by
  have hlen : (s.map Int.toNat).length = s.length := List.length_map _ _
  have hmap : ∀ (i : ℕ) (hi : i < s.length),
      (s.map Int.toNat).get ⟨i, by omega⟩ = (s.get ⟨i, hi⟩).toNat := by
    intro i hi
    simp [List.get_eq_getElem, List.getElem_map]
  have hinj : ∀ (i j : ℕ) (hi : i < s.length) (hj : j < s.length),
      (s.get ⟨i, hi⟩).toNat = (s.get ⟨j, hj⟩).toNat → i = j := by
    intro i j hi hj hij
    rw [← hmap i hi, ← hmap j hj] at hij
    have := (List.Nodup.get_inj_iff hnd).mp hij
    exact congrArg Fin.val this
  intro ht
  rcases ht with ⟨h1, h2⟩ | ⟨h1, h2⟩
  · exact hne (hinj k2 k (Nat.lt_of_succ_lt hk2) (Nat.lt_of_succ_lt hk) h1)
  · have e1 : k2 = k + 1 := hinj k2 (k + 1) (Nat.lt_of_succ_lt hk2) hk h1
    have e2 : k2 + 1 = k := hinj (k2 + 1) k hk2 (Nat.lt_of_succ_lt hk) h2
    omega

/-- Under injective node images, the two ends of an edge are distinct
entries. -/
lemma consecutive_ends_ne (s : List ℤ) (hnd : (s.map Int.toNat).Nodup)
    (k : ℕ) (hk : k + 1 < s.length) :
    (s.get ⟨k, Nat.lt_of_succ_lt hk⟩).toNat ≠ (s.get ⟨k + 1, hk⟩).toNat := by
  intro h
  have hmap : ∀ (i : ℕ) (hi : i < s.length),
      (s.map Int.toNat).get ⟨i, by rw [List.length_map]; exact hi⟩ = (s.get ⟨i, hi⟩).toNat := by
    intro i hi
    simp [List.get_eq_getElem, List.getElem_map]
  rw [← hmap k (Nat.lt_of_succ_lt hk), ← hmap (k + 1) hk] at h
  have := (List.Nodup.get_inj_iff hnd).mp h
  simp at this

/-- The final cumulative score of a segment's edge list: the sum of the
log1p-transformed picked entries. -/
noncomputable def segSum (ctm : Mat) (s : List ℤ) : ℝ :=
  ((getEdges s).map (fun ab => log1pZ (ctm.entry ab.1.toNat ab.2.toNat))).sum

/-- For a segment with at least one edge, `segment_p[-1]` is `segSum`. -/
lemma segProb_getLast (ctm : Mat) (s : List ℤ) (h : 2 ≤ s.length) :
    (calculateSegmentProbability ctm (getEdges s)).getLast? = some (segSum ctm s) := by
  apply cumsum_getLast
  intro hc
  have h0 : getEdges s = [] := List.map_eq_nil_iff.mp hc
  have h1 : (consecutivePairs s).length = s.length - 1 := consecutivePairs_length s
  have h2 : (consecutivePairs s).length = 0 := by rw [show consecutivePairs s = getEdges s from rfl, h0]; rfl
  omega

/-- The segment loop body, rewritten through the final scores: the strict
comparison of `segment_p[-1]` against `segment_p_reveresed[-1]` selects the
branch. -/
lemma applySegment_eq (ctm w d : Mat) (s : List ℤ) (h : 2 ≤ s.length) :
    applySegment ctm w d s =
      if segSum ctm s > segSum ctm s.reverse then some (writeForward w d (getEdges s))
      else if segSum ctm s < segSum ctm s.reverse then some (writeReverse w d (getEdges s))
      else some (writeTie w d (getEdges s)) := by
  have hrev : 2 ≤ s.reverse.length := by rw [List.length_reverse]; exact h
  simp only [applySegment]
  rw [segProb_getLast ctm s h, segProb_getLast ctm s.reverse hrev]

/-- What the segment write leaves at the two entries of the `k`-th edge of
a segment whose nodes map injectively to matrix coordinates. -/
lemma applySegment_entries (ctm w d : Mat) (s : List ℤ) (hnd : (s.map Int.toNat).Nodup)
    (d2 : Mat) (hap : applySegment ctm w d s = some d2) (k : ℕ) (hk : k + 1 < s.length)
    (u v : ℕ) (hu : u = (s.get ⟨k, Nat.lt_of_succ_lt hk⟩).toNat)
    (hv : v = (s.get ⟨k + 1, hk⟩).toNat) :
    (segSum ctm s.reverse < segSum ctm s →
      d2.entry u v = max (w.entry u v) (w.entry v u) ∧ d2.entry v u = 0) ∧
    (segSum ctm s < segSum ctm s.reverse →
      d2.entry v u = max (w.entry u v) (w.entry v u) ∧ d2.entry u v = 0) ∧
    (segSum ctm s = segSum ctm s.reverse →
      d2.entry u v = w.entry u v ∧ d2.entry v u = w.entry v u) := by
  have h2 : 2 ≤ s.length := by omega
  rw [applySegment_eq ctm w d s h2] at hap
  have hlen : k < (getEdges s).length := by
    rw [show getEdges s = consecutivePairs s from rfl, consecutivePairs_length]
    omega
  have hgetk : (getEdges s).get ⟨k, hlen⟩ =
      (s.get ⟨k, Nat.lt_of_succ_lt hk⟩, s.get ⟨k + 1, hk⟩) :=
    consecutivePairs_get s k hk hlen
  have hsplitE : getEdges s =
      (getEdges s).take k ++ (getEdges s).get ⟨k, hlen⟩ :: (getEdges s).drop (k + 1) := by
    rw [List.cons_get_drop_succ, List.take_append_drop]
  have huvne : u ≠ v := by rw [hu, hv]; exact consecutive_ends_ne s hnd k hk
  have h1e : ((getEdges s).get ⟨k, hlen⟩).1.toNat = u := by rw [hgetk, hu]
  have h2e : ((getEdges s).get ⟨k, hlen⟩).2.toNat = v := by rw [hgetk, hv]
  have hE2 : ∀ f ∈ (getEdges s).drop (k + 1), ¬ touchesPair f u v := by
    intro f hf
    rcases List.mem_iff_get.mp hf with ⟨⟨m, hm⟩, hfm⟩
    have hmlen : k + 1 + m < (getEdges s).length := by
      have := List.length_drop (k + 1) (getEdges s)
      omega
    have hfval : f = (getEdges s).get ⟨k + 1 + m, hmlen⟩ := by
      rw [← hfm]
      simp [List.get_eq_getElem, List.getElem_drop]
    have hm2 : (k + 1 + m) + 1 < s.length := by
      rw [show getEdges s = consecutivePairs s from rfl, consecutivePairs_length] at hmlen
      omega
    have hgetm : (getEdges s).get ⟨k + 1 + m, hmlen⟩ =
        (s.get ⟨k + 1 + m, Nat.lt_of_succ_lt hm2⟩, s.get ⟨k + 1 + m + 1, hm2⟩) :=
      consecutivePairs_get s (k + 1 + m) hm2 hmlen
    rw [hfval, hgetm, hu, hv]
    exact consecutive_touch_unique s hnd k (k + 1 + m) hk hm2 (by omega)
  by_cases hgt : segSum ctm s.reverse < segSum ctm s
  · rw [if_pos hgt] at hap
    have hd2 : d2 = writeForward w d (getEdges s) := (Option.some.inj hap).symm
    subst hd2
    rw [hsplitE]
    have hw := writeForward_last_touch w d ((getEdges s).take k) ((getEdges s).drop (k + 1))
      ((getEdges s).get ⟨k, hlen⟩) u v huvne h1e h2e hE2
    exact ⟨fun _ => hw, fun hlt => absurd hgt (lt_asymm hlt),
      fun heq => absurd (heq ▸ hgt) (lt_irrefl _)⟩
  · rw [if_neg hgt] at hap
    by_cases hlt : segSum ctm s < segSum ctm s.reverse
    · rw [if_pos hlt] at hap
      have hd2 : d2 = writeReverse w d (getEdges s) := (Option.some.inj hap).symm
      subst hd2
      rw [hsplitE]
      have hw := writeReverse_last_touch w d ((getEdges s).take k) ((getEdges s).drop (k + 1))
        ((getEdges s).get ⟨k, hlen⟩) u v huvne h1e h2e hE2
      exact ⟨fun hgt2 => absurd hgt2 hgt, fun _ => hw,
        fun heq => absurd (heq ▸ hlt) (lt_irrefl _)⟩
    · rw [if_neg hlt] at hap
      have hd2 : d2 = writeTie w d (getEdges s) := (Option.some.inj hap).symm
      subst hd2
      rw [hsplitE]
      have hw := writeTie_last_touch w d ((getEdges s).take k) ((getEdges s).drop (k + 1))
        ((getEdges s).get ⟨k, hlen⟩) u v huvne h1e h2e hE2
      exact ⟨fun hgt2 => absurd hgt2 hgt, fun hlt2 => absurd hlt2 hlt, fun _ => hw⟩

/-- On nonnegative inputs the zero-cleaned log1p is plain `log (1 + x)`. -/
lemma log1pZ_of_nonneg (x : ℝ) (hx : 0 ≤ x) : log1pZ x = Real.log (1 + x) := by
  rw [log1pZ, if_neg]
  intro h
  linarith

/-! ## C1 — the segment score and the orientation rule -/

/-- C1 (amended): the final entry of `_calculate_segment_probability` is the
sum over the segment's edges `(a, b)` of `log (1 + P[a, b])` (`np.log1p`),
not `log P[a, b]`; and `construct_velocity_tree` orients a segment in the
direction whose final score is strictly larger: when the forward score
exceeds the reversed one each edge is written forward (winner
`max(w[r,c], w[c,r])`, loser `0`), and mirrored when the reversed score
exceeds the forward one. -/
theorem segment_score_is_sum_log1p_and_orients_by_larger_score (ctm w d : Mat) (s : List ℤ)
    (hlen : 2 ≤ s.length) (hnd : (s.map Int.toNat).Nodup)
    (hpos : ∀ i j, 0 ≤ ctm.entry i j) :
    (calculateSegmentProbability ctm (getEdges s)).getLast? =
      some (((getEdges s).map
        (fun ab => Real.log (1 + ctm.entry ab.1.toNat ab.2.toNat))).sum) ∧
    (∀ d2, applySegment ctm w d s = some d2 → ∀ k (hk : k + 1 < s.length),
      (segSum ctm s.reverse < segSum ctm s →
        d2.entry (s.get ⟨k, Nat.lt_of_succ_lt hk⟩).toNat (s.get ⟨k + 1, hk⟩).toNat =
          max (w.entry (s.get ⟨k, Nat.lt_of_succ_lt hk⟩).toNat (s.get ⟨k + 1, hk⟩).toNat)
            (w.entry (s.get ⟨k + 1, hk⟩).toNat (s.get ⟨k, Nat.lt_of_succ_lt hk⟩).toNat) ∧
        d2.entry (s.get ⟨k + 1, hk⟩).toNat (s.get ⟨k, Nat.lt_of_succ_lt hk⟩).toNat = 0) ∧
      (segSum ctm s < segSum ctm s.reverse →
        d2.entry (s.get ⟨k + 1, hk⟩).toNat (s.get ⟨k, Nat.lt_of_succ_lt hk⟩).toNat =
          max (w.entry (s.get ⟨k, Nat.lt_of_succ_lt hk⟩).toNat (s.get ⟨k + 1, hk⟩).toNat)
            (w.entry (s.get ⟨k + 1, hk⟩).toNat (s.get ⟨k, Nat.lt_of_succ_lt hk⟩).toNat) ∧
        d2.entry (s.get ⟨k, Nat.lt_of_succ_lt hk⟩).toNat (s.get ⟨k + 1, hk⟩).toNat = 0)) := by
  constructor
  · rw [segProb_getLast ctm s hlen, segSum]
    congr 1
    refine congrArg List.sum (List.map_congr_left ?_)
    intro ab _
    exact log1pZ_of_nonneg _ (hpos ab.1.toNat ab.2.toNat)
  · intro d2 hap k hk
    have h := applySegment_entries ctm w d s hnd d2 hap k hk _ _ rfl rfl
    exact ⟨h.1, h.2.1⟩

/-- The all-zero 2×2 array. -/
def zeroMat2 : Mat := { rows := 2, cols := 2, entry := fun _ _ => 0 }

/-- Witness for the amended C1 at a concrete segment. -/
theorem segment_score_is_sum_log1p_witness :
    (calculateSegmentProbability zeroMat2 (getEdges [(0 : ℤ), 1])).getLast? =
      some (((getEdges [(0 : ℤ), 1]).map
        (fun ab => Real.log (1 + zeroMat2.entry ab.1.toNat ab.2.toNat))).sum) :=
  (segment_score_is_sum_log1p_and_orients_by_larger_score zeroMat2 zeroMat2 zeroMat2
    [(0 : ℤ), 1] (by decide) (by decide) (fun i j => le_refl 0)).1

/-- The center matrix used by the C1 counterexample: `P[0, 1] = 1`. -/
def matC1 : Mat := { rows := 2, cols := 2, entry := fun i j => if i = 0 ∧ j = 1 then 1 else 0 }

/-- C1 counterexample: on a one-edge segment whose transition probability is
`1`, the code's final score is `log 2 ≠ 0`, while the sum of logarithms of
the transition probabilities claimed by the spec is `log 1 = 0`. -/
theorem segment_score_is_not_sum_log :
    (calculateSegmentProbability matC1 [((0 : ℤ), (1 : ℤ))]).getLast? = some (Real.log 2) ∧
    Real.log (matC1.entry 0 1) = 0 ∧ Real.log 2 ≠ 0 := by
  refine ⟨?_, ?_, ne_of_gt (Real.log_pos one_lt_two)⟩
  · have h1 : matC1.entry (0 : ℤ).toNat (1 : ℤ).toNat = 1 := by norm_num [matC1]
    simp only [calculateSegmentProbability, List.map_cons, List.map_nil, cumsum, List.map_nil]
    rw [List.getLast?_singleton, h1, log1pZ, if_neg (by norm_num)]
    norm_num
  · have h1 : matC1.entry 0 1 = 1 := by norm_num [matC1]
    rw [h1, Real.log_one]

/-! ## Structure of `constructVelocityTree` runs -/

/-- When every read succeeds, `construct_velocity_tree` returns the
processed tree and stores it under `"directed_velocity_tree"`. -/
lemma constructVelocityTree_ok_form (adata : Adata) (key : String) (tm : MatInput)
    (co : CellOrder) (R : Mat) (corder cparent : List ℤ) (w : Mat) (parents : List ℤ) (d : Mat)
    (h1 : lookupStr adata.obsp (key ++ "_transition_matrix") = some tm)
    (h2 : adata.cellOrder = some co) (h3 : co.R = some R)
    (h4 : co.centers_order = some corder) (h5 : co.centers_parent = some cparent)
    (h6 : co.centers_minSpanningTree = some w)
    (h7 : parentsOf cparent (argsort corder) = some parents)
    (h8 : processSegments (computeCenterTransitionMatrix tm R) w w.copy
      (getAllSegments (argsort corder) parents) = some d) :
    constructVelocityTree adata key =
      (.ok d, { adata with uns := unsInsert "directed_velocity_tree" d adata.uns }) := by
  simp only [constructVelocityTree, h1, h2, h3, h4, h5, h6, h7, h8]

/-- A successful run of `construct_velocity_tree` determines all the reads
and the processed tree. -/
lemma constructVelocityTree_ok_inv (adata : Adata) (key : String) (d : Mat)
    (h : (constructVelocityTree adata key).1 = .ok d) :
    ∃ tm co R corder cparent w parents,
      lookupStr adata.obsp (key ++ "_transition_matrix") = some tm ∧
      adata.cellOrder = some co ∧ co.R = some R ∧ co.centers_order = some corder ∧
      co.centers_parent = some cparent ∧ co.centers_minSpanningTree = some w ∧
      parentsOf cparent (argsort corder) = some parents ∧
      processSegments (computeCenterTransitionMatrix tm R) w w.copy
        (getAllSegments (argsort corder) parents) = some d := by
  rcases h1 : lookupStr adata.obsp (key ++ "_transition_matrix") with _ | tm
  · simp [constructVelocityTree, h1] at h
  rcases h2 : adata.cellOrder with _ | co
  · simp [constructVelocityTree, h1, h2] at h
  rcases h3 : co.R with _ | R
  · simp [constructVelocityTree, h1, h2, h3] at h
  rcases h4 : co.centers_order with _ | corder
  · simp [constructVelocityTree, h1, h2, h3, h4] at h
  rcases h5 : co.centers_parent with _ | cparent
  · simp [constructVelocityTree, h1, h2, h3, h4, h5] at h
  rcases h7 : parentsOf cparent (argsort corder) with _ | parents
  · simp [constructVelocityTree, h1, h2, h3, h4, h5, h7] at h
  rcases h6 : co.centers_minSpanningTree with _ | w
  · simp [constructVelocityTree, h1, h2, h3, h4, h5, h6, h7] at h
  rcases h8 : processSegments (computeCenterTransitionMatrix tm R) w w.copy
      (getAllSegments (argsort corder) parents) with _ | d2
  · simp [constructVelocityTree, h1, h2, h3, h4, h5, h6, h7, h8] at h
  · have hd : d2 = d := by
      simp [constructVelocityTree, h1, h2, h3, h4, h5, h6, h7, h8] at h
      exact h
    subst hd
    exact ⟨tm, co, R, corder, cparent, w, parents, rfl, rfl, h3, h4, h5, h6, h7, h8⟩

/-- C5: a successful `construct_velocity_tree` does not modify its inputs:
`adata.obsp` and the whole `"cell_order"` entry (hence
`"centers_minSpanningTree"`, `"R"`, `"centers_order"`, `"centers_parent"`)
are unchanged, the only modification is the insertion of
`"directed_velocity_tree"` into `adata.uns`, and the returned array is
exactly the stored one. -/
theorem construct_velocity_tree_frame (adata : Adata) (key : String) (d : Mat)
    (h : (constructVelocityTree adata key).1 = Except.ok d) :
    (constructVelocityTree adata key).2.obsp = adata.obsp ∧
    (constructVelocityTree adata key).2.cellOrder = adata.cellOrder ∧
    (constructVelocityTree adata key).2.uns =
      unsInsert "directed_velocity_tree" d adata.uns ∧
    lookupStr (constructVelocityTree adata key).2.uns "directed_velocity_tree" = some d := by
  obtain ⟨tm, co, R, corder, cparent, w, parents, h1, h2, h3, h4, h5, h6, h7, h8⟩ :=
    constructVelocityTree_ok_inv adata key d h
  rw [constructVelocityTree_ok_form adata key tm co R corder cparent w parents d
    h1 h2 h3 h4 h5 h6 h7 h8]
  exact ⟨rfl, rfl, rfl, lookupStr_unsInsert _ _ _⟩

/-! ## C4 — the pair invariant of the directed tree -/

/-- The invariant a pair of symmetric entries keeps throughout the segment
loop: either exactly one direction is nonzero, or both entries still hold
their values from the undirected tree. -/
def PairSpec (w d : Mat) (u v : ℕ) : Prop :=
  ExactlyOne (d.entry u v) (d.entry v u) ∨
    (d.entry u v = w.entry u v ∧ d.entry v u = w.entry v u)

/-- `applySegment` only succeeds on segments with at least one edge. -/
lemma applySegment_some_len (ctm w d : Mat) (s : List ℤ) (d2 : Mat)
    (h : applySegment ctm w d s = some d2) : 2 ≤ s.length := by
  by_contra hlen
  push_neg at hlen
  have he : consecutivePairs s = [] := by
    cases s with
    | nil => rfl
    | cons x xs =>
      cases xs with
      | nil => rfl
      | cons y ys => simp at hlen; omega
  have he2 : getEdges s = [] := he
  simp [applySegment, he2, calculateSegmentProbability, cumsum] at h

/-- A forward step preserves the pair invariant. -/
lemma forwardStep_pair (w d : Mat) (e : ℤ × ℤ) (u v : ℕ) (huv : u ≠ v)
    (hnonneg : ∀ i j, 0 ≤ w.entry i j) (hP : PairSpec w d u v) :
    PairSpec w (forwardStep w d e) u v := by
  by_cases ht : touchesPair e u v
  · rcases ht with ⟨h1, h2⟩ | ⟨h1, h2⟩
    · have hw := writeForward_last_touch w d [] [] e u v huv h1 h2 (by simp)
      have he : writeForward w d ([] ++ e :: []) = forwardStep w d e := rfl
      rw [he] at hw
      rcases hw with ⟨hw1, hw2⟩
      by_cases hm : max (w.entry u v) (w.entry v u) = 0
      · right
        refine ⟨?_, ?_⟩
        · rw [hw1, hm, le_antisymm (hm ▸ le_max_left _ _) (hnonneg u v)]
        · rw [hw2, le_antisymm (hm ▸ le_max_right _ _) (hnonneg v u)]
      · left; left; exact ⟨by rw [hw1]; exact hm, hw2⟩
    · have hw := writeForward_last_touch w d [] [] e v u (Ne.symm huv) h1 h2 (by simp)
      have he : writeForward w d ([] ++ e :: []) = forwardStep w d e := rfl
      rw [he] at hw
      rcases hw with ⟨hw1, hw2⟩
      by_cases hm : max (w.entry v u) (w.entry u v) = 0
      · right
        refine ⟨?_, ?_⟩
        · rw [hw2, le_antisymm (hm ▸ le_max_right _ _) (hnonneg u v)]
        · rw [hw1, hm, le_antisymm (hm ▸ le_max_left _ _) (hnonneg v u)]
      · left; right; exact ⟨hw2, by rw [hw1]; exact hm⟩
  · have hu1 := writeForward_untouched w u v [e] d
      (fun f hf => by rcases List.mem_singleton.mp hf with rfl; exact ht)
    have hu2 := writeForward_untouched w v u [e] d
      (fun f hf => by
        rcases List.mem_singleton.mp hf with rfl
        exact fun hs => ht (touchesPair_symm _ _ _ hs))
    have he : writeForward w d [e] = forwardStep w d e := rfl
    rw [he] at hu1 hu2
    unfold PairSpec at hP ⊢
    rw [hu1, hu2]
    exact hP

/-- A reverse step preserves the pair invariant. -/
lemma reverseStep_pair (w d : Mat) (e : ℤ × ℤ) (u v : ℕ) (huv : u ≠ v)
    (hnonneg : ∀ i j, 0 ≤ w.entry i j) (hP : PairSpec w d u v) :
    PairSpec w (reverseStep w d e) u v := by
  by_cases ht : touchesPair e u v
  · rcases ht with ⟨h1, h2⟩ | ⟨h1, h2⟩
    · have hw := writeReverse_last_touch w d [] [] e u v huv h1 h2 (by simp)
      have he : writeReverse w d ([] ++ e :: []) = reverseStep w d e := rfl
      rw [he] at hw
      rcases hw with ⟨hw1, hw2⟩
      by_cases hm : max (w.entry u v) (w.entry v u) = 0
      · right
        refine ⟨?_, ?_⟩
        · rw [hw2, le_antisymm (hm ▸ le_max_left _ _) (hnonneg u v)]
        · rw [hw1, hm, le_antisymm (hm ▸ le_max_right _ _) (hnonneg v u)]
      · left; right; exact ⟨hw2, by rw [hw1]; exact hm⟩
    · have hw := writeReverse_last_touch w d [] [] e v u (Ne.symm huv) h1 h2 (by simp)
      have he : writeReverse w d ([] ++ e :: []) = reverseStep w d e := rfl
      rw [he] at hw
      rcases hw with ⟨hw1, hw2⟩
      by_cases hm : max (w.entry v u) (w.entry u v) = 0
      · right
        refine ⟨?_, ?_⟩
        · rw [hw1, hm, le_antisymm (hm ▸ le_max_right _ _) (hnonneg u v)]
        · rw [hw2, le_antisymm (hm ▸ le_max_left _ _) (hnonneg v u)]
      · left; left; exact ⟨by rw [hw1]; exact hm, hw2⟩
  · have hu1 := writeReverse_untouched w u v [e] d
      (fun f hf => by rcases List.mem_singleton.mp hf with rfl; exact ht)
    have hu2 := writeReverse_untouched w v u [e] d
      (fun f hf => by
        rcases List.mem_singleton.mp hf with rfl
        exact fun hs => ht (touchesPair_symm _ _ _ hs))
    have he : writeReverse w d [e] = reverseStep w d e := rfl
    rw [he] at hu1 hu2
    unfold PairSpec at hP ⊢
    rw [hu1, hu2]
    exact hP

/-- A tie step preserves the pair invariant. -/
lemma tieStep_pair (w d : Mat) (e : ℤ × ℤ) (u v : ℕ) (huv : u ≠ v)
    (hP : PairSpec w d u v) : PairSpec w (tieStep w d e) u v := by
  by_cases ht : touchesPair e u v
  · rcases ht with ⟨h1, h2⟩ | ⟨h1, h2⟩
    · have hw := writeTie_last_touch w d [] [] e u v huv h1 h2 (by simp)
      have he : writeTie w d ([] ++ e :: []) = tieStep w d e := rfl
      rw [he] at hw
      exact Or.inr hw
    · have hw := writeTie_last_touch w d [] [] e v u (Ne.symm huv) h1 h2 (by simp)
      have he : writeTie w d ([] ++ e :: []) = tieStep w d e := rfl
      rw [he] at hw
      exact Or.inr ⟨hw.2, hw.1⟩
  · have hu1 := writeTie_untouched w u v [e] d
      (fun f hf => by rcases List.mem_singleton.mp hf with rfl; exact ht)
    have hu2 := writeTie_untouched w v u [e] d
      (fun f hf => by
        rcases List.mem_singleton.mp hf with rfl
        exact fun hs => ht (touchesPair_symm _ _ _ hs))
    have he : writeTie w d [e] = tieStep w d e := rfl
    rw [he] at hu1 hu2
    unfold PairSpec at hP ⊢
    rw [hu1, hu2]
    exact hP

/-- A whole forward write preserves the pair invariant. -/
lemma writeForward_pair (w : Mat) (u v : ℕ) (huv : u ≠ v)
    (hnonneg : ∀ i j, 0 ≤ w.entry i j) :
    ∀ (E : List (ℤ × ℤ)) (d : Mat), PairSpec w d u v →
      PairSpec w (writeForward w d E) u v := by
  intro E
  induction E with
  | nil => intro d hP; exact hP
  | cons e rest ih =>
    intro d hP
    exact ih (forwardStep w d e) (forwardStep_pair w d e u v huv hnonneg hP)

/-- A whole reverse write preserves the pair invariant. -/
lemma writeReverse_pair (w : Mat) (u v : ℕ) (huv : u ≠ v)
    (hnonneg : ∀ i j, 0 ≤ w.entry i j) :
    ∀ (E : List (ℤ × ℤ)) (d : Mat), PairSpec w d u v →
      PairSpec w (writeReverse w d E) u v := by
  intro E
  induction E with
  | nil => intro d hP; exact hP
  | cons e rest ih =>
    intro d hP
    exact ih (reverseStep w d e) (reverseStep_pair w d e u v huv hnonneg hP)

/-- A whole tie write preserves the pair invariant. -/
lemma writeTie_pair (w : Mat) (u v : ℕ) (huv : u ≠ v) :
    ∀ (E : List (ℤ × ℤ)) (d : Mat), PairSpec w d u v →
      PairSpec w (writeTie w d E) u v := by
  intro E
  induction E with
  | nil => intro d hP; exact hP
  | cons e rest ih =>
    intro d hP
    exact ih (tieStep w d e) (tieStep_pair w d e u v huv hP)

/-- One segment preserves the pair invariant. -/
lemma applySegment_pair (ctm w d d2 : Mat) (s : List ℤ) (u v : ℕ) (huv : u ≠ v)
    (hnonneg : ∀ i j, 0 ≤ w.entry i j)
    (hap : applySegment ctm w d s = some d2) (hP : PairSpec w d u v) :
    PairSpec w d2 u v := by
  have h2 := applySegment_some_len ctm w d s d2 hap
  rw [applySegment_eq ctm w d s h2] at hap
  by_cases hgt : segSum ctm s > segSum ctm s.reverse
  · rw [if_pos hgt] at hap
    rw [← Option.some.inj hap]
    exact writeForward_pair w u v huv hnonneg _ d hP
  · rw [if_neg hgt] at hap
    by_cases hlt : segSum ctm s < segSum ctm s.reverse
    · rw [if_pos hlt] at hap
      rw [← Option.some.inj hap]
      exact writeReverse_pair w u v huv hnonneg _ d hP
    · rw [if_neg hlt] at hap
      rw [← Option.some.inj hap]
      exact writeTie_pair w u v huv _ d hP

/-- The whole segment loop preserves the pair invariant. -/
lemma processSegments_pair (ctm w : Mat) (u v : ℕ) (huv : u ≠ v)
    (hnonneg : ∀ i j, 0 ≤ w.entry i j) :
    ∀ (segs : List (List ℤ)) (d0 d : Mat),
      processSegments ctm w d0 segs = some d → PairSpec w d0 u v → PairSpec w d u v := by
  intro segs
  induction segs with
  | nil =>
    intro d0 d h hP
    rw [← Option.some.inj h]
    exact hP
  | cons seg rest ih =>
    intro d0 d h hP
    rcases hap : applySegment ctm w d0 seg with _ | d1
    · rw [processSegments, hap] at h
      exact Option.noConfusion h
    · rw [processSegments, hap] at h
      exact ih d1 d h (applySegment_pair ctm w d0 d1 seg u v huv hnonneg hap hP)

/-- C4 (amended): with nonnegative tree weights, the returned array gives
every off-diagonal symmetric entry pair a single direction — exactly one of
the two entries is nonzero — except that a pair whose segment scores tie
keeps both of its original values; pairs not written keep their original
values as well.  In particular, for an undirected edge (a pair with a
nonzero weight) the edge is either singly directed or left untouched. -/
theorem directed_tree_single_direction_or_original (adata : Adata) (key : String) (d : Mat)
    (co : CellOrder) (w : Mat)
    (hco : adata.cellOrder = some co) (hw : co.centers_minSpanningTree = some w)
    (hok : (constructVelocityTree adata key).1 = Except.ok d)
    (hnonneg : ∀ i j, 0 ≤ w.entry i j)
    (u v : ℕ) (huv : u ≠ v) :
    ExactlyOne (d.entry u v) (d.entry v u) ∨
      (d.entry u v = w.entry u v ∧ d.entry v u = w.entry v u) := by
  obtain ⟨tm, co2, R, corder, cparent, w2, parents, h1, h2, h3, h4, h5, h6, h7, h8⟩ :=
    constructVelocityTree_ok_inv adata key d hok
  have hco2 : co2 = co := Option.some.inj (h2 ▸ hco)
  subst hco2
  have hw2 : w2 = w := Option.some.inj (h6 ▸ hw)
  rw [hw2] at h8
  have hinit : PairSpec w w.copy u v := Or.inr ⟨rfl, rfl⟩
  exact processSegments_pair (computeCenterTransitionMatrix tm R) w u v huv hnonneg
    (getAllSegments (argsort corder) parents) w.copy d h8 hinit

/-! ## A concrete run of the pipeline -/

/-- An all-zero cell transition matrix (dense input). -/
def T0 : MatInput := MatInput.dense zeroMat2

/-- The identity assignment matrix for two cells and two centers. -/
def R5 : Mat := { rows := 2, cols := 2, entry := fun i j => if i = j then 1 else 0 }

/-- A symmetric minimum spanning tree on two centers: both `(0,1)` and
`(1,0)` carry weight `1`. -/
def W5 : Mat :=
  { rows := 2, cols := 2,
    entry := fun i j => if i = 0 ∧ j = 1 then 1 else if i = 1 ∧ j = 0 then 1 else 0 }

/-- A fully populated `cell_order` dict for the two-center line `0 → 1`. -/
def CO5 : CellOrder :=
  { R := some R5, centers_order := some [0, 1], centers_parent := some [-1, 0],
    centers_minSpanningTree := some W5 }

/-- The concrete `adata` with all of the pipeline's inputs in place. -/
def A5 : Adata :=
  { obsp := [("pearson_transition_matrix", T0)], cellOrder := some CO5, uns := [] }

/-- The directed tree produced on `A5`: the tie branch applied to the
single edge. -/
def D5 : Mat := writeTie W5 W5.copy [((0 : ℤ), (1 : ℤ))]

/-- With an all-zero cell transition matrix the center matrix is zero. -/
lemma ctm5_zero : ∀ a b, (computeCenterTransitionMatrix T0 R5).entry a b = 0 := by
  intro a b
  have hmass : ∀ c, centerMass (densify T0) R5 a c = 0 := by
    intro c
    rw [centerMass]
    split
    · rfl
    · split
      · have hM : ∀ i j, (densify T0).entry i j = 0 := fun i j => rfl
        simp [hM]
      · rfl
  show centerMass (densify T0) R5 a b / centerTotals (densify T0) R5 a = 0
  rw [hmass b, zero_div]

/-- Every two-node segment scores zero against the zero center matrix. -/
lemma segSum5 (a b : ℤ) : segSum (computeCenterTransitionMatrix T0 R5) [a, b] = 0 := by
  simp only [segSum]
  have he : getEdges [a, b] = [(a, b)] := rfl
  rw [he]
  simp only [List.map_cons, List.map_nil, List.sum_cons, List.sum_nil, add_zero]
  rw [ctm5_zero, log1pZ, if_neg (by norm_num)]
  norm_num

/-- On `A5`'s single segment the two scores tie, so the tie branch runs. -/
lemma applySegment5 :
    applySegment (computeCenterTransitionMatrix T0 R5) W5 W5.copy [(0 : ℤ), 1] = some D5 := by
  rw [applySegment_eq _ _ _ _ (by decide)]
  have hr : ([(0 : ℤ), 1] : List ℤ).reverse = [(1 : ℤ), 0] := by decide
  rw [hr, segSum5 0 1, segSum5 1 0]
  rw [if_neg (lt_irrefl (0 : ℝ)), if_neg (lt_irrefl (0 : ℝ))]
  rfl

/-- The segment loop of the concrete run. -/
lemma processSegments5 :
    processSegments (computeCenterTransitionMatrix T0 R5) W5 W5.copy
      (getAllSegments (argsort [0, 1]) [(-1 : ℤ), 0]) = some D5 := by
  have hseg : getAllSegments (argsort [(0 : ℤ), 1]) [(-1 : ℤ), 0] = [[(0 : ℤ), 1]] := by decide
  rw [hseg]
  simp only [processSegments, applySegment5]

/-- The concrete run end to end. -/
lemma cvtA5_eval : constructVelocityTree A5 "pearson" =
    (Except.ok D5, { A5 with uns := unsInsert "directed_velocity_tree" D5 A5.uns }) :=
  constructVelocityTree_ok_form A5 "pearson" T0 CO5 R5 [0, 1] [-1, 0] W5 [-1, 0] D5
    rfl rfl rfl rfl rfl rfl (by decide) processSegments5

/-- The tie branch wrote back both symmetric weights. -/
lemma D5_entries : D5.entry 0 1 = 1 ∧ D5.entry 1 0 = 1 := by
  constructor <;> norm_num [D5, writeTie, tieStep, Mat.set, Mat.copy, W5, List.foldl]

/-- C4 counterexample: on a symmetric two-center tree whose segment scores
tie exactly, `construct_velocity_tree` returns an array in which *both*
`directed[0, 1]` and `directed[1, 0]` are nonzero, so the edge `{0, 1}`
(present in the undirected tree in both orientations) is not given a
single direction. -/
theorem directed_tree_keeps_both_directions_on_tie :
    (constructVelocityTree A5 "pearson").1 = Except.ok D5 ∧
    W5.entry 0 1 ≠ 0 ∧ W5.entry 1 0 ≠ 0 ∧
    D5.entry 0 1 = 1 ∧ D5.entry 1 0 = 1 ∧
    ¬ ExactlyOne (D5.entry 0 1) (D5.entry 1 0) := by
  refine ⟨by rw [cvtA5_eval], by norm_num [W5], by norm_num [W5],
    D5_entries.1, D5_entries.2, ?_⟩
  rw [D5_entries.1, D5_entries.2]
  rintro (⟨-, h⟩ | ⟨h, -⟩) <;> exact one_ne_zero h

/-- Witness for the amended C4 at the concrete run. -/
theorem directed_tree_single_direction_or_original_witness :
    ExactlyOne (D5.entry 0 1) (D5.entry 1 0) ∨
      (D5.entry 0 1 = W5.entry 0 1 ∧ D5.entry 1 0 = W5.entry 1 0) :=
  directed_tree_single_direction_or_original A5 "pearson" D5 CO5 W5 rfl rfl
    (by rw [cvtA5_eval])
    (by
      intro i j
      by_cases h1 : i = 0 ∧ j = 1 <;> by_cases h2 : i = 1 ∧ j = 0 <;>
        simp [W5, h1, h2])
    0 1 (by decide)

/-- Witness for C5 at the concrete run. -/
theorem construct_velocity_tree_frame_witness :
    (constructVelocityTree A5 "pearson").2.obsp = A5.obsp ∧
    (constructVelocityTree A5 "pearson").2.cellOrder = A5.cellOrder ∧
    (constructVelocityTree A5 "pearson").2.uns =
      unsInsert "directed_velocity_tree" D5 A5.uns ∧
    lookupStr (constructVelocityTree A5 "pearson").2.uns "directed_velocity_tree" =
      some D5 :=
  construct_velocity_tree_frame A5 "pearson" D5 (by rw [cvtA5_eval])

/-! ## C8 — when `construct_velocity_tree` raises `KeyError` -/

/-- A fold of dict insertions is unchanged at keys it never binds. -/
lemma dictFold_not_mem :
    ∀ (l : List (ℤ × ℤ)) (f : ℤ → Option ℤ) (x : ℤ), (∀ cp ∈ l, x ≠ cp.1) →
      (l.foldl (fun f cp => fun x => if x = cp.1 then some cp.2 else f x) f) x = f x := by
  intro l
  induction l with
  | nil => intro f x _; rfl
  | cons cp rest ih =>
    intro f x hx
    rw [List.foldl_cons, ih _ x (fun q hq => hx q (List.mem_cons_of_mem _ hq))]
    exact if_neg (hx cp (List.mem_cons_self _ _))

/-- At a bound key the fold result does not depend on the initial dict. -/
lemma dictFold_indep :
    ∀ (l : List (ℤ × ℤ)) (f g : ℤ → Option ℤ) (x : ℤ), x ∈ l.map Prod.fst →
      (l.foldl (fun f cp => fun x => if x = cp.1 then some cp.2 else f x) f) x =
      (l.foldl (fun f cp => fun x => if x = cp.1 then some cp.2 else f x) g) x := by
  intro l
  induction l with
  | nil => intro f g x hx; exact absurd hx (by simp)
  | cons cp rest ih =>
    intro f g x hx
    by_cases hr : x ∈ rest.map Prod.fst
    · rw [List.foldl_cons, List.foldl_cons]
      exact ih _ _ x hr
    · have hx1 : x = cp.1 := by
        rcases List.mem_map.mp hx with ⟨q, hq, hqx⟩
        rcases List.mem_cons.mp hq with rfl | hq2
        · exact hqx.symm
        · exact absurd (List.mem_map.mpr ⟨q, hq2, hqx⟩) hr
      have hnr : ∀ q ∈ rest, x ≠ q.1 := by
        intro q hq heq
        exact hr (List.mem_map.mpr ⟨q, hq, heq.symm⟩)
      rw [List.foldl_cons, List.foldl_cons, dictFold_not_mem rest _ x hnr,
        dictFold_not_mem rest _ x hnr]
      simp [hx1]

/-- A bound value in the fold comes from the list or the initial dict. -/
lemma dictFold_mem_of_some :
    ∀ (l : List (ℤ × ℤ)) (f : ℤ → Option ℤ) (x v : ℤ),
      (l.foldl (fun f cp => fun x => if x = cp.1 then some cp.2 else f x) f) x = some v →
      (x, v) ∈ l ∨ f x = some v := by
  intro l
  induction l with
  | nil => intro f x v h; exact Or.inr h
  | cons cp rest ih =>
    intro f x v h
    rw [List.foldl_cons] at h
    rcases ih _ x v h with h2 | h2
    · exact Or.inl (List.mem_cons_of_mem _ h2)
    · by_cases hx : x = cp.1
      · rw [if_pos hx] at h2
        refine Or.inl ?_
        have hv : v = cp.2 := (Option.some.inj h2).symm
        rw [hx, hv]
        exact List.mem_cons_self _ _
      · rw [if_neg hx] at h2
        exact Or.inr h2

/-- Keys absent from `orders` are absent from the dict. -/
lemma buildDict_not_mem (orders parents : List ℤ) (x : ℤ) (hx : x ∉ orders) :
    buildDict orders parents x = none := by
  refine dictFold_not_mem _ _ x ?_
  intro cp hcp heq
  exact hx (heq ▸ (List.of_mem_zip hcp).1)

/-- A bound value of the dict comes from the zipped arrays. -/
lemma buildDict_some_mem (orders parents : List ℤ) (x v : ℤ)
    (h : buildDict orders parents x = some v) : (x, v) ∈ orders.zip parents := by
  rcases dictFold_mem_of_some _ _ x v h with h2 | h2
  · exact h2
  · exact Option.noConfusion h2

/-- Indexing a zip of two lists. -/
lemma zip_get_eq (l1 l2 : List ℤ) (i : ℕ) (h : i < (l1.zip l2).length)
    (h1 : i < l1.length) (h2 : i < l2.length) :
    (l1.zip l2).get ⟨i, h⟩ = (l1.get ⟨i, h1⟩, l2.get ⟨i, h2⟩) := by
  simp [List.get_eq_getElem, List.getElem_zip]

/-- Zip members decompose into a common index. -/
lemma mem_zip_get (l1 l2 : List ℤ) (x v : ℤ) (h : (x, v) ∈ l1.zip l2) :
    ∃ i, ∃ (h1 : i < l1.length) (h2 : i < l2.length),
      l1.get ⟨i, h1⟩ = x ∧ l2.get ⟨i, h2⟩ = v := by
  rcases List.mem_iff_get.mp h with ⟨⟨i, hi⟩, hget⟩
  have hz : (l1.zip l2).length = min l1.length l2.length := List.length_zip l1 l2
  have hlen1 : i < l1.length := by omega
  have hlen2 : i < l2.length := by omega
  rw [zip_get_eq l1 l2 i hi hlen1 hlen2] at hget
  exact ⟨i, hlen1, hlen2, congrArg Prod.fst hget, congrArg Prod.snd hget⟩

/-- With distinct keys, the dict maps `orders[i]` to `parents[i]`. -/
lemma buildDict_get (orders parents : List ℤ) (hnd : orders.Nodup)
    (hlen : orders.length = parents.length) :
    ∀ (i : ℕ) (hi : i < orders.length) (hip : i < parents.length),
      buildDict orders parents (orders.get ⟨i, hi⟩) = some (parents.get ⟨i, hip⟩) := by
  induction orders generalizing parents with
  | nil => intro i hi _; exact absurd hi (by simp)
  | cons a os ih =>
    intro i hi hip
    cases parents with
    | nil => exact absurd hip (by simp)
    | cons b ps =>
      have hstep : buildDict (a :: os) (b :: ps) =
          ((os.zip ps).foldl (fun f cp => fun x => if x = cp.1 then some cp.2 else f x)
            (fun x => if x = a then some b else none)) := rfl
      cases i with
      | zero =>
        have hga : (a :: os).get ⟨0, hi⟩ = a := rfl
        have hgb : (b :: ps).get ⟨0, hip⟩ = b := rfl
        rw [hstep, hga, hgb]
        have hna : ∀ cp ∈ os.zip ps, a ≠ cp.1 := by
          intro cp hcp heq
          exact (List.nodup_cons.mp hnd).1 (heq ▸ (List.of_mem_zip hcp).1)
        rw [dictFold_not_mem _ _ a hna]
        simp
      | succ i2 =>
        have hi2 : i2 < os.length := by simpa using hi
        have hip2 : i2 < ps.length := by simpa using hip
        have hlen2 : os.length = ps.length := by simpa using hlen
        have hmem : (os.get ⟨i2, hi2⟩) ∈ (os.zip ps).map Prod.fst := by
          refine List.mem_map.mpr ⟨(os.get ⟨i2, hi2⟩, ps.get ⟨i2, hip2⟩), ?_, rfl⟩
          have hz : i2 < (os.zip ps).length := by
            rw [List.length_zip]; omega
          rw [← zip_get_eq os ps i2 hz hi2 hip2]
          exact List.get_mem (os.zip ps) i2 hz
        have hg : (a :: os).get ⟨i2 + 1, hi⟩ = os.get ⟨i2, hi2⟩ := rfl
        have hg2 : (b :: ps).get ⟨i2 + 1, hip⟩ = ps.get ⟨i2, hip2⟩ := rfl
        rw [hstep, hg, hg2]
        rw [dictFold_indep (os.zip ps) _ (fun _ => none) _ hmem]
        exact ih ps (List.nodup_cons.mp hnd).2 hlen2 i2 hi2 hip2

/-- Indexing at the junction of an append. -/
lemma get_append_cons : ∀ (l1 : List ℤ) (x : ℤ) (l2 : List ℤ)
    (h : l1.length < (l1 ++ x :: l2).length),
    (l1 ++ x :: l2).get ⟨l1.length, h⟩ = x := by
  intro l1
  induction l1 with
  | nil => intro x l2 h; rfl
  | cons a l1 ih =>
    intro x l2 h
    exact ih x l2 (by simp only [List.length_cons, List.length_append] at h ⊢; omega)

/-- Indexing any list known to split at a junction. -/
lemma get_eq_of_append_cons (l l1 : List ℤ) (x : ℤ) (l2 : List ℤ) (heq : l = l1 ++ x :: l2)
    (i : ℕ) (hi : i = l1.length) (h : i < l.length) : l.get ⟨i, h⟩ = x := by
  subst heq
  subst hi
  exact get_append_cons l1 x l2 h

/-- The optional last element is the entry at the last index. -/
lemma getLast?_some_get (l : List ℤ) (e : ℤ) (h : l.getLast? = some e)
    (hl : l.length - 1 < l.length) : l.get ⟨l.length - 1, hl⟩ = e := by
  cases l with
  | nil => exact Option.noConfusion h
  | cons x xs =>
    have h2 : (x :: xs).getLast (by simp) = e := by
      have := List.getLast?_eq_getLast (x :: xs) (by simp)
      rw [this] at h
      exact Option.some.inj h
    rw [List.getLast_eq_getElem] at h2
    rw [List.get_eq_getElem]
    exact h2

/-- Structure of the result of the `_get_path` loop: the accumulator is a
prefix, every node from the loop's start is linked to the next by the
parents dict and is not an end node (except the final one), and the final
node is an end node. -/
lemma getPathAux_spec (pd : ℤ → Option ℤ) (ends : List ℤ) :
    ∀ (fuel : ℕ) (cur : ℤ) (front l : List ℤ),
      getPathAux pd ends fuel cur (front ++ [cur]) = some l →
      (∃ t, l = front ++ cur :: t) ∧
      (∀ k (hk : k + 1 < l.length), front.length ≤ k →
        pd (l.get ⟨k, Nat.lt_of_succ_lt hk⟩) = some (l.get ⟨k + 1, hk⟩) ∧
          l.get ⟨k, Nat.lt_of_succ_lt hk⟩ ∉ ends) ∧
      (∃ e, l.getLast? = some e ∧ e ∈ ends) := by
  intro fuel
  induction fuel with
  | zero => intro cur front l h; exact Option.noConfusion h
  | succ fuel ih =>
    intro cur front l h
    rw [getPathAux] at h
    by_cases hmem : cur ∈ ends
    · rw [if_pos hmem] at h
      have hl : l = front ++ [cur] := (Option.some.inj h).symm
      subst hl
      refine ⟨⟨[], rfl⟩, ?_, ⟨cur, List.getLast?_concat _, hmem⟩⟩
      intro k hk hfk
      have : (front ++ [cur]).length = front.length + 1 := by simp
      omega
    · rw [if_neg hmem] at h
      rcases hpd : pd cur with _ | p
      · rw [hpd] at h; exact Option.noConfusion h
      · rw [hpd] at h
        have := ih p (front ++ [cur]) l h
        rcases this with ⟨⟨t, ht⟩, hchain, hlast⟩
        have hlfc : l = front ++ cur :: (p :: t) := by
          rw [ht, List.append_assoc]
          rfl
        refine ⟨⟨p :: t, hlfc⟩, ?_, hlast⟩
        intro k hk hfk
        by_cases hkf : k = front.length
        · subst hkf
          have hg1 : l.get ⟨front.length, Nat.lt_of_succ_lt hk⟩ = cur :=
            get_eq_of_append_cons l front cur (p :: t) hlfc front.length rfl _
          have hg2 : l.get ⟨front.length + 1, hk⟩ = p :=
            get_eq_of_append_cons l (front ++ [cur]) p t ht (front.length + 1) (by simp) _
          rw [hg1, hg2]
          exact ⟨hpd, hmem⟩
        · exact hchain k hk (by simp at hfk ⊢; omega)

/-- `getPath` results start at the start node, follow the dict, avoid end
nodes strictly inside, and stop at an end node. -/
lemma getPath_spec (pd : ℤ → Option ℤ) (ends : List ℤ) (start : ℤ) (fuel : ℕ) (l : List ℤ)
    (h : getPath pd start ends fuel = some l) :
    ∃ p, pd start = some p ∧ p ≠ -1 ∧
      (∃ t, l = start :: p :: t) ∧
      (∀ k (hk : k + 1 < l.length),
        pd (l.get ⟨k, Nat.lt_of_succ_lt hk⟩) = some (l.get ⟨k + 1, hk⟩)) ∧
      (∀ k (hk : k < l.length), 1 ≤ k → k + 1 < l.length → l.get ⟨k, hk⟩ ∉ ends) ∧
      (∃ e, l.getLast? = some e ∧ e ∈ ends) := by
  rw [getPath] at h
  rcases hpd : pd start with _ | p
  · rw [hpd] at h; exact Option.noConfusion h
  · rw [hpd] at h
    have h2 : (if p = -1 then none else getPathAux pd ends fuel p [start, p]) = some l := h
    by_cases hp1 : p = -1
    · rw [if_pos hp1] at h2; exact Option.noConfusion h2
    · rw [if_neg hp1] at h2
      have hspec := getPathAux_spec pd ends fuel p [start] l h2
      rcases hspec with ⟨⟨t, ht⟩, hchain, hlast⟩
      refine ⟨p, rfl, hp1, ⟨t, ht⟩, ?_, ?_, hlast⟩
      · intro k hk
        cases k with
        | zero =>
          have hg0 : l.get ⟨0, Nat.lt_of_succ_lt hk⟩ = start :=
            get_eq_of_append_cons l [] start (p :: t) ht 0 rfl _
          have hg1 : l.get ⟨1, hk⟩ = p :=
            get_eq_of_append_cons l [start] p t ht 1 rfl _
          rw [hg0, hg1]
          exact hpd
        | succ k2 =>
          exact (hchain (k2 + 1) hk (by simp)).1
      · intro k hkl h1k hk1
        exact (hchain k hk1 (by simpa using h1k)).2

/-- Roots are end nodes. -/
lemma mem_endNodes_of_root (orders parents : List ℤ) (x : ℤ) (hx : x ∈ orders)
    (hpd : buildDict orders parents x = some (-1)) : x ∈ endNodes orders parents := by
  by_cases hb : x ∈ bifurcationNodes parents
  · exact List.mem_append_left _ hb
  · refine List.mem_append_right _ ?_
    rw [List.mem_filter]
    refine ⟨?_, by simpa using hb⟩
    rw [rootNodes, List.mem_filter]
    exact ⟨hx, by simp [hpd]⟩

/-- On a well-formed tree the `_get_path` loop always stops: the index of
the current node strictly decreases along the parent links. -/
lemma getPathAux_isSome (orders parents : List ℤ) (h : TreeHyp orders parents) :
    ∀ (fuel i : ℕ) (hi : i < orders.length), i < fuel → ∀ acc,
      (getPathAux (buildDict orders parents) (endNodes orders parents) fuel
        (orders.get ⟨i, hi⟩) acc).isSome := by
  intro fuel
  induction fuel with
  | zero => intro i hi hif; omega
  | succ fuel ih =>
    intro i hi hif acc
    rw [getPathAux]
    by_cases hmem : orders.get ⟨i, hi⟩ ∈ endNodes orders parents
    · rw [if_pos hmem]; rfl
    · rw [if_neg hmem]
      have hip : i < parents.length := by rw [← h.len_eq]; exact hi
      have hpd := buildDict_get orders parents h.nodup h.len_eq i hi hip
      rw [hpd]
      by_cases hp1 : parents.get ⟨i, hip⟩ = -1
      · rw [hp1] at hpd
        exact absurd (mem_endNodes_of_root orders parents _ (List.get_mem _ _ _) hpd) hmem
      · rcases h.topo i hip with htop | ⟨j, hj, hji, hjv⟩
        · exact absurd htop hp1
        · rw [← hjv]
          exact ih j hj (by omega) _

/-- Starting `_get_path` at a non-root node of a well-formed tree yields a
path (the fuel passed by `_get_all_segments` suffices). -/
lemma getPath_isSome (orders parents : List ℤ) (h : TreeHyp orders parents) (i : ℕ)
    (hi : i < orders.length) (hip : i < parents.length)
    (hp : parents.get ⟨i, hip⟩ ≠ -1) :
    ∃ l, getPath (buildDict orders parents) (orders.get ⟨i, hi⟩)
      (endNodes orders parents) (orders.length + 1) = some l := by
  rw [getPath, buildDict_get orders parents h.nodup h.len_eq i hi hip]
  show ∃ l, (if parents.get ⟨i, hip⟩ = -1 then none
    else getPathAux (buildDict orders parents) (endNodes orders parents) (orders.length + 1)
      (parents.get ⟨i, hip⟩) [orders.get ⟨i, hi⟩, parents.get ⟨i, hip⟩]) = some l
  rw [if_neg hp]
  rcases h.topo i hip with htop | ⟨j, hj, hji, hjv⟩
  · exact absurd htop hp
  · rw [← hjv]
    exact Option.isSome_iff_exists.mp
      (getPathAux_isSome orders parents h (orders.length + 1) j hj (by omega) _)

/-! ## Membership characterizations of the node classes -/

/-- The leaf list captures exactly the leaves. -/
lemma mem_leafNodes_iff (orders parents : List ℤ) (x : ℤ) :
    x ∈ leafNodes orders parents ↔ IsLeaf orders parents x := by
  simp [leafNodes, IsLeaf, List.mem_filter]

/-- `firstOccurrences` preserves membership. -/
lemma mem_firstOccurrences (l : List ℤ) (x : ℤ) : x ∈ firstOccurrences l ↔ x ∈ l := by
  induction l with
  | nil => rfl
  | cons a rest ih =>
    show x ∈ a :: (firstOccurrences rest).filter (fun y => decide (y ≠ a)) ↔ _
    by_cases hxa : x = a
    · subst hxa
      simp
    · simp only [List.mem_cons, List.mem_filter, ih, decide_eq_true_eq]
      constructor
      · rintro (h | ⟨hm, -⟩)
        · exact Or.inl h
        · exact Or.inr hm
      · rintro (h | hm2)
        · exact absurd h hxa
        · exact Or.inr ⟨hm2, hxa⟩

/-- The bifurcation list captures exactly the bifurcation nodes. -/
lemma mem_bifurcationNodes_iff (parents : List ℤ) (x : ℤ) :
    x ∈ bifurcationNodes parents ↔ IsBifurcation parents x := by
  rw [bifurcationNodes, List.mem_filter, mem_firstOccurrences, IsBifurcation]
  simp only [decide_eq_true_eq]
  constructor
  · rintro ⟨-, hc⟩; exact hc
  · intro hc
    refine ⟨?_, hc⟩
    have : 0 < parents.count x := by omega
    exact List.count_pos_iff.mp this

/-- The root list captures exactly the roots. -/
lemma mem_rootNodes_iff (orders parents : List ℤ) (hnd : orders.Nodup)
    (hlen : orders.length = parents.length) (x : ℤ) :
    x ∈ rootNodes orders parents ↔ IsRoot orders parents x := by
  rw [rootNodes, List.mem_filter]
  simp only [decide_eq_true_eq]
  constructor
  · rintro ⟨hx, hpd⟩
    rcases mem_zip_get orders parents x (-1) (buildDict_some_mem orders parents x (-1) hpd)
      with ⟨i, h1, h2, hg1, hg2⟩
    exact ⟨i, h1, h2, hg1, hg2⟩
  · rintro ⟨i, h1, h2, hg1, hg2⟩
    subst hg1
    refine ⟨List.get_mem _ _ _, ?_⟩
    rw [buildDict_get orders parents hnd hlen i h1 h2, hg2]

/-- The end-node list captures exactly the bifurcations and roots. -/
lemma mem_endNodes_iff (orders parents : List ℤ) (hnd : orders.Nodup)
    (hlen : orders.length = parents.length) (x : ℤ) :
    x ∈ endNodes orders parents ↔
      IsBifurcation parents x ∨ IsRoot orders parents x := by
  rw [endNodes, List.mem_append, mem_bifurcationNodes_iff, List.mem_filter]
  simp only [decide_eq_true_eq]
  constructor
  · rintro (hb | ⟨hr, -⟩)
    · exact Or.inl hb
    · exact Or.inr ((mem_rootNodes_iff orders parents hnd hlen x).mp hr)
  · rintro (hb | hr)
    · exact Or.inl hb
    · by_cases hb2 : x ∈ bifurcationNodes parents
      · exact Or.inl ((mem_bifurcationNodes_iff parents x).mp hb2)
      · exact Or.inr ⟨(mem_rootNodes_iff orders parents hnd hlen x).mpr hr, hb2⟩

/-- The start-node list captures exactly the leaves and bifurcations. -/
lemma mem_startNodes_iff (orders parents : List ℤ) (x : ℤ) :
    x ∈ startNodes orders parents ↔
      IsLeaf orders parents x ∨ IsBifurcation parents x := by
  rw [startNodes, List.mem_append, mem_leafNodes_iff, mem_bifurcationNodes_iff]

/-- A dict link is a recorded parent relation. -/
lemma isParentOf_of_buildDict (orders parents : List ℤ) (x y : ℤ)
    (h : buildDict orders parents x = some y) : IsParentOf orders parents x y := by
  rcases mem_zip_get orders parents x y (buildDict_some_mem _ _ _ _ h)
    with ⟨i, h1, h2, hg1, hg2⟩
  exact ⟨i, h1, h2, hg1, hg2⟩

/-- With distinct nodes, a recorded parent relation is a dict link. -/
lemma buildDict_of_isParentOf (orders parents : List ℤ) (hnd : orders.Nodup)
    (hlen : orders.length = parents.length) (x y : ℤ)
    (h : IsParentOf orders parents x y) : buildDict orders parents x = some y := by
  rcases h with ⟨i, h1, h2, hg1, hg2⟩
  rw [← hg1, buildDict_get orders parents hnd hlen i h1 h2, hg2]

/-- Multi-leaf case of C3: every returned segment starts at a leaf or
bifurcation, follows the parent relation, stops at the first bifurcation or
root, and its interior avoids both. -/
lemma segments_chain (orders parents : List ℤ) (h : TreeHyp orders parents)
    (hml : (leafNodes orders parents).length ≠ 1) (s : List ℤ)
    (hs : s ∈ getAllSegments orders parents) :
    ∃ (h0 : 0 < s.length),
      (IsLeaf orders parents (s.get ⟨0, h0⟩) ∨ IsBifurcation parents (s.get ⟨0, h0⟩)) ∧
      (∀ k (hk : k + 1 < s.length),
        IsParentOf orders parents (s.get ⟨k, Nat.lt_of_succ_lt hk⟩) (s.get ⟨k + 1, hk⟩)) ∧
      (∃ (hl : s.length - 1 < s.length),
        IsBifurcation parents (s.get ⟨s.length - 1, hl⟩) ∨
          IsRoot orders parents (s.get ⟨s.length - 1, hl⟩)) ∧
      (∀ k (hk : k < s.length), 1 ≤ k → k + 1 < s.length →
        ¬ IsBifurcation parents (s.get ⟨k, hk⟩) ∧
          ¬ IsRoot orders parents (s.get ⟨k, hk⟩)) := by
  rw [getAllSegments, if_neg hml] at hs
  rcases List.mem_filterMap.mp hs with ⟨u, hu, hget⟩
  rcases getPath_spec _ _ _ _ _ hget with ⟨p, hpd, hp1, ⟨t, ht⟩, hchain, hinterior, e, hle, hees⟩
  have h0 : 0 < s.length := by rw [ht]; simp
  refine ⟨h0, ?_, ?_, ?_, ?_⟩
  · have hg0 : s.get ⟨0, h0⟩ = u := get_eq_of_append_cons s [] u (p :: t) ht 0 rfl h0
    rw [hg0]
    exact (mem_startNodes_iff orders parents u).mp hu
  · intro k hk
    exact isParentOf_of_buildDict orders parents _ _ (hchain k hk)
  · have hl : s.length - 1 < s.length := by omega
    refine ⟨hl, ?_⟩
    rw [getLast?_some_get s e hle hl]
    exact (mem_endNodes_iff orders parents h.nodup h.len_eq e).mp hees
  · intro k hk h1k hk1
    have hnotend := hinterior k hk h1k hk1
    have hiff := mem_endNodes_iff orders parents h.nodup h.len_eq (s.get ⟨k, hk⟩)
    exact ⟨fun hb => hnotend (hiff.mpr (Or.inl hb)),
      fun hr => hnotend (hiff.mpr (Or.inr hr))⟩

/-- In a tree whose traversal has exactly one leaf, every node's parent is
its predecessor in the traversal: a single-leaf tree is a path and the
topological order is the path order. -/
lemma single_leaf_parents (orders parents : List ℤ) (h : TreeHyp orders parents)
    (hone : (leafNodes orders parents).length = 1) :
    ∀ (i : ℕ) (hi : i < orders.length) (hip : i < parents.length) (h1i : 1 ≤ i)
      (hi1 : i - 1 < orders.length),
      parents.get ⟨i, hip⟩ = orders.get ⟨i - 1, hi1⟩ := by
  have hp0 : ∀ (h0 : 0 < parents.length), parents.get ⟨0, h0⟩ = -1 := by
    intro h0
    rcases h.topo 0 h0 with htop | ⟨j, hj, hji, -⟩
    · exact htop
    · omega
  have hnroot : ∀ (i : ℕ) (hip : i < parents.length), 1 ≤ i →
      parents.get ⟨i, hip⟩ ≠ -1 := by
    intro i hip h1i hcon
    have h0 : 0 < parents.length := by omega
    have := h.rootUnique i hip 0 h0 hcon (hp0 h0)
    omega
  have hpmem : ∀ (i : ℕ) (hip : i < parents.length), 1 ≤ i →
      parents.get ⟨i, hip⟩ ∈ orders := by
    intro i hip h1i
    rcases h.topo i hip with htop | ⟨j, hj, -, hjv⟩
    · exact absurd htop (hnroot i hip h1i)
    · exact hjv ▸ List.get_mem _ _ _
  -- counting: the parent-bearing nodes form a set of size n - 1
  have htf : orders.toFinset.card = orders.length := List.toFinset_card_of_nodup h.nodup
  have hleaft : (leafNodes orders parents).toFinset =
      orders.toFinset.filter (fun x => x ∉ parents) := by
    rw [leafNodes, List.toFinset_filter]
    ext x
    simp
  have hnodupLeaf : (leafNodes orders parents).Nodup := List.Nodup.filter _ h.nodup
  have hcl : (orders.toFinset.filter (fun x => x ∉ parents)).card = 1 := by
    rw [← hleaft, List.toFinset_card_of_nodup hnodupLeaf, hone]
  have hsplit : (orders.toFinset.filter (fun x => x ∈ parents)).card +
      (orders.toFinset.filter (fun x => ¬ x ∈ parents)).card = orders.toFinset.card :=
    Finset.filter_card_add_filter_neg_card_eq_card (fun x => x ∈ parents)
  have hV : (orders.toFinset.filter (fun x => x ∈ parents)).card = orders.length - 1 := by
    have hcl2 : (orders.toFinset.filter (fun x => ¬ x ∈ parents)).card = 1 := hcl
    omega
  have hS : (Finset.Ico 1 orders.length).card = orders.length - 1 := by
    simp
  have hgi : ∀ (i : ℕ) (hip : i < parents.length),
      parents.getD i 0 = parents.get ⟨i, hip⟩ := by
    intro i hip
    rw [List.get_eq_getElem]
    exact List.getD_eq_getElem parents 0 hip
  have himg : (Finset.Ico 1 orders.length).image (fun i => parents.getD i 0) =
      orders.toFinset.filter (fun x => x ∈ parents) := by
    apply Finset.Subset.antisymm
    · intro x hx
      rcases Finset.mem_image.mp hx with ⟨i, hiS, hix⟩
      rcases Finset.mem_Ico.mp hiS with ⟨h1i, hin⟩
      have hip : i < parents.length := by rw [← h.len_eq]; exact hin
      rw [hgi i hip] at hix
      refine Finset.mem_filter.mpr ⟨?_, ?_⟩
      · rw [List.mem_toFinset, ← hix]
        exact hpmem i hip h1i
      · rw [← hix]
        exact List.get_mem _ _ _
    · intro x hx
      rcases Finset.mem_filter.mp hx with ⟨hxo, hxp⟩
      rcases List.mem_iff_get.mp hxp with ⟨⟨j, hj⟩, hgj⟩
      have hj0 : j ≠ 0 := by
        intro hj0
        subst hj0
        have hx0 : 0 ≤ x := h.nonneg x (List.mem_toFinset.mp hxo)
        rw [hp0 hj] at hgj
        omega
      refine Finset.mem_image.mpr ⟨j, Finset.mem_Ico.mpr ⟨by omega, by rw [h.len_eq]; exact hj⟩, ?_⟩
      rw [hgi j hj]
      exact hgj
  have hinj : Set.InjOn (fun i => parents.getD i 0) (Finset.Ico 1 orders.length) := by
    apply Finset.card_image_iff.mp
    rw [himg, hV, hS]
  -- strong induction: the parent of position i sits at position i - 1
  intro i
  induction i using Nat.strong_induction_on with
  | _ i IH =>
    intro hi hip h1i hi1
    rcases h.topo i hip with htop | ⟨j, hj, hji, hjv⟩
    · exact absurd htop (hnroot i hip h1i)
    · by_cases hj1 : j = i - 1
      · subst hj1
        rw [← hjv]
      · exfalso
        have hjlt : j + 1 < i := by omega
        have hj1n : j + 1 < orders.length := by omega
        have hj1p : j + 1 < parents.length := by rw [← h.len_eq]; exact hj1n
        have hIH := IH (j + 1) hjlt hj1n hj1p (by omega) (by omega)
        -- parents[j+1] = orders[j] = parents[i]
        have heq : parents.getD (j + 1) 0 = parents.getD i 0 := by
          rw [hgi (j + 1) hj1p, hgi i hip, hIH, ← hjv]
          have hval : j + 1 - 1 = j := by omega
          exact congrArg orders.get (Fin.ext hval)
        have hmem1 : (j + 1 : ℕ) ∈ (Finset.Ico 1 orders.length : Finset ℕ) :=
          Finset.mem_Ico.mpr ⟨by omega, hj1n⟩
        have hmem2 : i ∈ (Finset.Ico 1 orders.length : Finset ℕ) :=
          Finset.mem_Ico.mpr ⟨h1i, hi⟩
        have := hinj (Finset.mem_coe.mpr hmem1) (Finset.mem_coe.mpr hmem2) heq
        omega

/-- Multi-leaf coverage: every tree edge appears (child before parent) in
some returned segment.  Downward induction: a node that is not a start node
has a unique child, whose edge's segment passes through it. -/
lemma coverage_multi (orders parents : List ℤ) (h : TreeHyp orders parents)
    (hml : (leafNodes orders parents).length ≠ 1) :
    ∀ (m i : ℕ) (hi : i < orders.length) (hip : i < parents.length),
      orders.length - i ≤ m → parents.get ⟨i, hip⟩ ≠ -1 →
      ∃ s, s ∈ getAllSegments orders parents ∧ ∃ k, ∃ (hk : k + 1 < s.length),
        s.get ⟨k, Nat.lt_of_succ_lt hk⟩ = orders.get ⟨i, hi⟩ ∧
        s.get ⟨k + 1, hk⟩ = parents.get ⟨i, hip⟩ := by
  intro m
  induction m with
  | zero => intro i hi hip hm hp; omega
  | succ m ih =>
    intro i hi hip hm hp
    by_cases hc : orders.get ⟨i, hi⟩ ∈ startNodes orders parents
    · rcases getPath_isSome orders parents h i hi hip hp with ⟨l, hl⟩
      have hmem : l ∈ getAllSegments orders parents := by
        rw [getAllSegments, if_neg hml]
        exact List.mem_filterMap.mpr ⟨_, hc, hl⟩
      rcases getPath_spec _ _ _ _ _ hl with ⟨p, hpd, hp1, ⟨t, hlt⟩, hchain, -, -⟩
      have hpd2 : buildDict orders parents (orders.get ⟨i, hi⟩) =
          some (parents.get ⟨i, hip⟩) :=
        buildDict_get orders parents h.nodup h.len_eq i hi hip
      have hpp : p = parents.get ⟨i, hip⟩ := Option.some.inj (hpd.symm.trans hpd2)
      have hk : 0 + 1 < l.length := by rw [hlt]; simp
      refine ⟨l, hmem, 0, hk, ?_, ?_⟩
      · exact get_eq_of_append_cons l [] _ (p :: t) hlt 0 rfl _
      · exact (get_eq_of_append_cons l [orders.get ⟨i, hi⟩] p t hlt 1 (by simp) hk).trans hpp
    · set c := orders.get ⟨i, hi⟩ with hcdef
      have hcmem : c ∈ orders := List.get_mem _ _ _
      have hnleaf : c ∉ leafNodes orders parents := fun hl2 => hc (List.mem_append_left _ hl2)
      have hnbif : c ∉ bifurcationNodes parents := fun hb => hc (List.mem_append_right _ hb)
      have hcpar : c ∈ parents := by
        by_contra hcp
        exact hnleaf ((mem_leafNodes_iff orders parents c).mpr ⟨hcmem, hcp⟩)
      rcases List.mem_iff_get.mp hcpar with ⟨⟨j0, hj0⟩, hgj0⟩
      have hj0o : j0 < orders.length := by rw [h.len_eq]; exact hj0
      have hcne : c ≠ -1 := by have := h.nonneg c hcmem; omega
      have hij0 : i < j0 := by
        rcases h.topo j0 hj0 with htop | ⟨jc, hjc, hjcj, hjcv⟩
        · rw [hgj0] at htop; exact absurd htop hcne
        · rw [hgj0] at hjcv
          have h2 : orders.get ⟨jc, hjc⟩ = orders.get ⟨i, hi⟩ := by rw [hjcv, hcdef]
          have h3 : (⟨jc, hjc⟩ : Fin orders.length) = ⟨i, hi⟩ :=
            (List.Nodup.get_inj_iff h.nodup).mp h2
          have h4 : jc = i := congrArg Fin.val h3
          omega
      have hd := ih j0 hj0o hj0 (by omega) (by rw [hgj0]; exact hcne)
      rcases hd with ⟨s, hsmem, k, hk, hget1, hget2⟩
      rw [hgj0] at hget2
      have hs2 := hsmem
      rw [getAllSegments, if_neg hml] at hs2
      rcases List.mem_filterMap.mp hs2 with ⟨u, hu, hgetu⟩
      rcases getPath_spec _ _ _ _ _ hgetu with ⟨p, hpd, hp1, ⟨t, hlt⟩, hchain, hint, e, hle, hees⟩
      have hcnotend : c ∉ endNodes orders parents := by
        rw [mem_endNodes_iff orders parents h.nodup h.len_eq]
        rintro (hb | hr)
        · exact hnbif ((mem_bifurcationNodes_iff parents c).mpr hb)
        · rcases hr with ⟨i2, h1, h2, hg1, hg2⟩
          have heqI : (⟨i2, h1⟩ : Fin orders.length) = ⟨i, hi⟩ :=
            (List.Nodup.get_inj_iff h.nodup).mp (by rw [hg1, hcdef])
          have hii : i2 = i := congrArg Fin.val heqI
          subst hii
          exact hp hg2
      have hk2 : k + 1 + 1 < s.length := by
        by_contra hcon
        push_neg at hcon
        have hlast : k + 1 = s.length - 1 := by omega
        have hl2 : s.length - 1 < s.length := by omega
        have hlaste := getLast?_some_get s e hle hl2
        apply hcnotend
        have hfe : (⟨k + 1, hk⟩ : Fin s.length) = ⟨s.length - 1, hl2⟩ := Fin.ext hlast
        rw [← hget2, hfe, hlaste]
        exact hees
      have hget2b : s.get ⟨k + 1, Nat.lt_of_succ_lt hk2⟩ = c := hget2
      have hlink := hchain (k + 1) hk2
      rw [hget2b] at hlink
      have hpdc : buildDict orders parents c = some (parents.get ⟨i, hip⟩) := by
        rw [hcdef]
        exact buildDict_get orders parents h.nodup h.len_eq i hi hip
      have hnext : s.get ⟨k + 1 + 1, hk2⟩ = parents.get ⟨i, hip⟩ :=
        Option.some.inj (hlink.symm.trans hpdc)
      exact ⟨s, hsmem, k + 1, hk2, hget2b.trans hcdef, hnext⟩

/-! ## C3 — the tree decomposition -/

/-- C3: `_get_all_segments` decomposes a well-formed tree into
root-to-branch segments.  With more than one leaf, every returned segment
starts at a leaf or bifurcation node, follows the parent relation, stops at
the first bifurcation node or root encountered (its interior contains
neither), with exactly one leaf the whole traversal order is the single
returned segment, and the edges of the returned segments cover every
parent-child edge of the tree (in one of the two orientations). -/
theorem tree_decomposition_into_segments (orders parents : List ℤ)
    (h : TreeHyp orders parents) :
    ((leafNodes orders parents).length = 1 → getAllSegments orders parents = [orders]) ∧
    ((leafNodes orders parents).length ≠ 1 →
      ∀ s ∈ getAllSegments orders parents, ∃ (h0 : 0 < s.length),
        (IsLeaf orders parents (s.get ⟨0, h0⟩) ∨ IsBifurcation parents (s.get ⟨0, h0⟩)) ∧
        (∀ k (hk : k + 1 < s.length),
          IsParentOf orders parents (s.get ⟨k, Nat.lt_of_succ_lt hk⟩) (s.get ⟨k + 1, hk⟩)) ∧
        (∃ (hl : s.length - 1 < s.length),
          IsBifurcation parents (s.get ⟨s.length - 1, hl⟩) ∨
            IsRoot orders parents (s.get ⟨s.length - 1, hl⟩)) ∧
        (∀ k (hk : k < s.length), 1 ≤ k → k + 1 < s.length →
          ¬ IsBifurcation parents (s.get ⟨k, hk⟩) ∧
            ¬ IsRoot orders parents (s.get ⟨k, hk⟩))) ∧
    (∀ i (hi : i < orders.length) (hip : i < parents.length),
      parents.get ⟨i, hip⟩ ≠ -1 →
      ∃ s, s ∈ getAllSegments orders parents ∧ ∃ k, ∃ (hk : k + 1 < s.length),
        ((s.get ⟨k, Nat.lt_of_succ_lt hk⟩ = orders.get ⟨i, hi⟩ ∧
          s.get ⟨k + 1, hk⟩ = parents.get ⟨i, hip⟩) ∨
         (s.get ⟨k, Nat.lt_of_succ_lt hk⟩ = parents.get ⟨i, hip⟩ ∧
          s.get ⟨k + 1, hk⟩ = orders.get ⟨i, hi⟩))) := by
  refine ⟨?_, ?_, ?_⟩
  · intro hone
    rw [getAllSegments, if_pos hone]
  · intro hml s hs
    exact segments_chain orders parents h hml s hs
  · intro i hi hip hp
    by_cases hone : (leafNodes orders parents).length = 1
    · have h1i : 1 ≤ i := by
        rcases Nat.eq_zero_or_pos i with rfl | hpos
        · exfalso
          rcases h.topo 0 hip with htop | ⟨j, hj, hji, -⟩
          · exact hp htop
          · omega
        · exact hpos
      have hi1 : i - 1 < orders.length := by omega
      have hpar := single_leaf_parents orders parents h hone i hi hip h1i hi1
      have hsmem : orders ∈ getAllSegments orders parents := by
        rw [getAllSegments, if_pos hone]
        exact List.mem_singleton.mpr rfl
      have hk : (i - 1) + 1 < orders.length := by omega
      refine ⟨orders, hsmem, i - 1, hk, Or.inr ⟨?_, ?_⟩⟩
      · rw [hpar]
      · have hval : (i - 1) + 1 = i := by omega
        exact congrArg orders.get (Fin.ext hval)
    · rcases coverage_multi orders parents h hone orders.length i hi hip (by omega) hp
        with ⟨s, hsmem, k, hk, hg1, hg2⟩
      exact ⟨s, hsmem, k, hk, Or.inl ⟨hg1, hg2⟩⟩

/-- The bounded dependent existential over an index range is decidable. -/
instance decidableBexLT2 (n : ℕ) (P : ∀ k, k < n → Prop) [∀ k h, Decidable (P k h)] :
    Decidable (∃ k, ∃ h : k < n, P k h) :=
  decidable_of_iff (¬ ∀ k (h : k < n), ¬ P k h) (by
    constructor
    · intro h
      by_contra hne
      push_neg at hne
      exact h fun k hk hp => hne k hk hp
    · rintro ⟨k, hk, hp⟩ hall
      exact hall k hk hp)

/-- Witness for C3: the edge from node 3 to its parent 1 in a concrete
two-branch tree is covered by a returned segment. -/
theorem tree_decomposition_witness :
    ∃ s, s ∈ getAllSegments [0, 1, 2, 3] [-1, 0, 0, 1] ∧ ∃ k, ∃ (hk : k + 1 < s.length),
      ((s.get ⟨k, Nat.lt_of_succ_lt hk⟩ = ([0, 1, 2, 3] : List ℤ).get ⟨3, by decide⟩ ∧
        s.get ⟨k + 1, hk⟩ = ([-1, 0, 0, 1] : List ℤ).get ⟨3, by decide⟩) ∨
       (s.get ⟨k, Nat.lt_of_succ_lt hk⟩ = ([-1, 0, 0, 1] : List ℤ).get ⟨3, by decide⟩ ∧
        s.get ⟨k + 1, hk⟩ = ([0, 1, 2, 3] : List ℤ).get ⟨3, by decide⟩)) :=
  (tree_decomposition_into_segments [0, 1, 2, 3] [-1, 0, 0, 1]
    ⟨by decide, by decide, by decide, by decide, by decide⟩).2.2 3 (by decide) (by decide)
    (by decide)

/-! ## C7 — the final entries written for each segment edge -/

/-- Splitting a list at the last occurrence of a member. -/
lemma mem_split_last {α : Type} [DecidableEq α] (a : α) :
    ∀ l : List α, a ∈ l → ∃ A B, l = A ++ a :: B ∧ a ∉ B := by
  intro l
  induction l with
  | nil => intro h; exact absurd h (List.not_mem_nil a)
  | cons x t ih =>
    intro h
    by_cases hat : a ∈ t
    · rcases ih hat with ⟨A, B, hAB, hnB⟩
      exact ⟨x :: A, B, by rw [hAB]; rfl, hnB⟩
    · have hax : a = x := by
        rcases List.mem_cons.mp h with h1 | h2
        · exact h1
        · exact absurd h2 hat
      exact ⟨[], t, by rw [hax]; rfl, hat⟩

/-- A run of the segment loop over an append splits into two runs. -/
lemma processSegments_append (ctm w : Mat) :
    ∀ (A B : List (List ℤ)) (d dF : Mat),
      processSegments ctm w d (A ++ B) = some dF →
      ∃ d1, processSegments ctm w d A = some d1 ∧ processSegments ctm w d1 B = some dF := by
  intro A
  induction A with
  | nil => intro B d dF h; exact ⟨d, rfl, h⟩
  | cons s A ih =>
    intro B d dF h
    rcases hap : applySegment ctm w d s with _ | d2
    · rw [List.cons_append, processSegments, hap] at h
      exact Option.noConfusion h
    · rw [List.cons_append, processSegments, hap] at h
      rcases ih B d2 dF h with ⟨d1, h1, h2⟩
      exact ⟨d1, by rw [processSegments, hap]; exact h1, h2⟩

/-- A segment application whose edges all miss `{u, v}` preserves both
entries of the pair. -/
lemma applySegment_untouched (ctm w d d2 : Mat) (s : List ℤ) (u v : ℕ)
    (hap : applySegment ctm w d s = some d2)
    (hnt : ∀ e ∈ getEdges s, ¬ touchesPair e u v) :
    d2.entry u v = d.entry u v ∧ d2.entry v u = d.entry v u := by
  have h2 := applySegment_some_len ctm w d s d2 hap
  rw [applySegment_eq ctm w d s h2] at hap
  have hnt2 : ∀ e ∈ getEdges s, ¬ touchesPair e v u := by
    intro e he hT
    exact hnt e he (touchesPair_symm e v u hT)
  by_cases hgt : segSum ctm s > segSum ctm s.reverse
  · rw [if_pos hgt] at hap
    rw [← Option.some.inj hap]
    exact ⟨writeForward_untouched w u v _ d hnt, writeForward_untouched w v u _ d hnt2⟩
  · rw [if_neg hgt] at hap
    by_cases hlt : segSum ctm s < segSum ctm s.reverse
    · rw [if_pos hlt] at hap
      rw [← Option.some.inj hap]
      exact ⟨writeReverse_untouched w u v _ d hnt, writeReverse_untouched w v u _ d hnt2⟩
    · rw [if_neg hlt] at hap
      rw [← Option.some.inj hap]
      exact ⟨writeTie_untouched w u v _ d hnt, writeTie_untouched w v u _ d hnt2⟩

/-- A run of the segment loop none of whose edges touch `{u, v}` preserves
both entries of the pair. -/
lemma processSegments_untouched (ctm w : Mat) (u v : ℕ) :
    ∀ (B : List (List ℤ)) (d dF : Mat),
      processSegments ctm w d B = some dF →
      (∀ s ∈ B, ∀ e ∈ getEdges s, ¬ touchesPair e u v) →
      dF.entry u v = d.entry u v ∧ dF.entry v u = d.entry v u := by
  intro B
  induction B with
  | nil =>
    intro d dF h _
    rw [← Option.some.inj h]
    exact ⟨rfl, rfl⟩
  | cons s B ih =>
    intro d dF h hnt
    rcases hap : applySegment ctm w d s with _ | d2
    · rw [processSegments, hap] at h
      exact Option.noConfusion h
    · rw [processSegments, hap] at h
      have h1 := applySegment_untouched ctm w d d2 s u v hap (hnt s (List.mem_cons_self _ _))
      have h2 := ih d2 dF h (fun s2 hs2 => hnt s2 (List.mem_cons_of_mem _ hs2))
      exact ⟨h2.1.trans h1.1, h2.2.trans h1.2⟩

/-- A nonsentinel recorded parent value is itself a traversed node. -/
lemma parents_mem_orders (orders parents : List ℤ) (h : TreeHyp orders parents)
    (x : ℤ) (hx : x ∈ parents) (hne : x ≠ -1) : x ∈ orders := by
  rcases List.mem_iff_get.mp hx with ⟨⟨i, hi⟩, hgi⟩
  rcases h.topo i hi with htop | ⟨j, hj, hji, hjv⟩
  · rw [hgi] at htop
    exact absurd htop hne
  · rw [hgi] at hjv
    exact hjv ▸ List.get_mem _ _ _

/-- End nodes are traversed nodes. -/
lemma endNodes_mem_orders (orders parents : List ℤ) (h : TreeHyp orders parents)
    (x : ℤ) (hx : x ∈ endNodes orders parents) : x ∈ orders := by
  rcases (mem_endNodes_iff orders parents h.nodup h.len_eq x).mp hx with hb | hr
  · rcases hb with ⟨hc, hne⟩
    exact parents_mem_orders orders parents h x (List.count_pos_iff.mp (by omega)) hne
  · rcases hr with ⟨i, h1, h2, hg1, -⟩
    exact hg1 ▸ List.get_mem _ _ _

/-- In a duplicate-free list the index of a retrieved element is its
position. -/
lemma indexOf_eq_of_get (orders : List ℤ) (hnd : orders.Nodup) (i : ℕ)
    (hi : i < orders.length) (x : ℤ) (hx : orders.get ⟨i, hi⟩ = x) :
    orders.indexOf x = i := by
  have hmem : x ∈ orders := hx ▸ List.get_mem _ _ _
  have hlt : orders.indexOf x < orders.length := List.indexOf_lt_length.mpr hmem
  have hget : orders.get ⟨orders.indexOf x, hlt⟩ = x := List.indexOf_get hlt
  have heq : (⟨orders.indexOf x, hlt⟩ : Fin orders.length) = ⟨i, hi⟩ :=
    (List.Nodup.get_inj_iff hnd).mp (hget.trans hx.symm)
  exact congrArg Fin.val heq

/-- Along a parent link of a well-formed tree the traversal index strictly
decreases. -/
lemma link_indexOf_lt (orders parents : List ℤ) (h : TreeHyp orders parents)
    (x y : ℤ) (hl : buildDict orders parents x = some y) (hy : y ≠ -1) :
    orders.indexOf y < orders.indexOf x := by
  rcases isParentOf_of_buildDict orders parents x y hl with ⟨i, h1, h2, hg1, hg2⟩
  have hidx : orders.indexOf x = i := indexOf_eq_of_get orders h.nodup i h1 x hg1
  rcases h.topo i h2 with htop | ⟨j, hj, hji, hjv⟩
  · rw [hg2] at htop
    exact absurd htop hy
  · rw [hg2] at hjv
    have hidy : orders.indexOf y = j := indexOf_eq_of_get orders h.nodup j hj y hjv
    omega

/-- Two distinct positions carrying the same value witness a count of at
least two. -/
lemma two_le_count_of_get (l : List ℤ) (x : ℤ) (i j : ℕ) (hi : i < l.length)
    (hj : j < l.length) (hij : i ≠ j) (hvi : l.get ⟨i, hi⟩ = x)
    (hvj : l.get ⟨j, hj⟩ = x) : 2 ≤ l.count x := by
  wlog hlt : i < j generalizing i j
  · exact this j i hj hi (Ne.symm hij) hvj hvi (by omega)
  have hsplit : l = l.take j ++ l.get ⟨j, hj⟩ :: l.drop (j + 1) := by
    rw [List.cons_get_drop_succ, List.take_append_drop]
  have hmem : x ∈ l.take j := by
    have hlen : i < (l.take j).length := by
      rw [List.length_take]
      omega
    have hgt : (l.take j).get ⟨i, hlen⟩ = l.get ⟨i, hi⟩ := by
      simp [List.get_eq_getElem, List.getElem_take]
    rw [← hvi, ← hgt]
    exact List.get_mem _ _ _
  have h1 : 0 < (l.take j).count x := List.count_pos_iff.mpr hmem
  calc 2 ≤ (l.take j).count x + (l.get ⟨j, hj⟩ :: l.drop (j + 1)).count x := by
        rw [hvj, List.count_cons_self]
        omega
    _ = l.count x := by rw [← List.count_append, ← hsplit]

/-- Structural facts about a multi-leaf segment: it has at least two nodes,
consecutive nodes are linked by the parents dict, every node is a traversed
node, traversal indices strictly decrease along the segment, interior nodes
are not end nodes, and the segment is the path returned for its own first
node, which is a start node. -/
lemma segment_facts (orders parents : List ℤ) (h : TreeHyp orders parents)
    (hml : (leafNodes orders parents).length ≠ 1) (s : List ℤ)
    (hs : s ∈ getAllSegments orders parents) :
    ∃ (h0 : 0 < s.length),
      2 ≤ s.length ∧
      (∀ k (hk : k + 1 < s.length),
        buildDict orders parents (s.get ⟨k, Nat.lt_of_succ_lt hk⟩) =
          some (s.get ⟨k + 1, hk⟩)) ∧
      (∀ k (hk : k < s.length), s.get ⟨k, hk⟩ ∈ orders) ∧
      (∀ k (hk : k + 1 < s.length),
        orders.indexOf (s.get ⟨k + 1, hk⟩) <
          orders.indexOf (s.get ⟨k, Nat.lt_of_succ_lt hk⟩)) ∧
      (∀ k (hk : k < s.length), 1 ≤ k → k + 1 < s.length →
        s.get ⟨k, hk⟩ ∉ endNodes orders parents) ∧
      (s.get ⟨0, h0⟩ ∈ startNodes orders parents) ∧
      getPath (buildDict orders parents) (s.get ⟨0, h0⟩) (endNodes orders parents)
        (orders.length + 1) = some s := by
  rw [getAllSegments, if_neg hml] at hs
  rcases List.mem_filterMap.mp hs with ⟨u, hu, hget⟩
  rcases getPath_spec _ _ _ _ _ hget with ⟨p, hpd, hp1, ⟨t, ht⟩, hchain, hinterior, e, hle, hees⟩
  have h0 : 0 < s.length := by rw [ht]; simp
  have h2 : 2 ≤ s.length := by rw [ht]; simp only [List.length_cons]; omega
  have hg0 : s.get ⟨0, h0⟩ = u := get_eq_of_append_cons s [] u (p :: t) ht 0 rfl h0
  have hmem : ∀ k (hk : k < s.length), s.get ⟨k, hk⟩ ∈ orders := by
    intro k hk
    by_cases hk1 : k + 1 < s.length
    · have hl := hchain k hk1
      have hz := buildDict_some_mem orders parents _ _ hl
      exact (List.of_mem_zip hz).1
    · have hkl : k = s.length - 1 := by omega
      have hl1 : s.length - 1 < s.length := by omega
      have hlast : s.get ⟨s.length - 1, hl1⟩ = e := getLast?_some_get s e hle hl1
      have hfe : s.get ⟨k, hk⟩ = s.get ⟨s.length - 1, hl1⟩ := congrArg s.get (Fin.ext hkl)
      rw [hfe, hlast]
      exact endNodes_mem_orders orders parents h e hees
  have hdec : ∀ k (hk : k + 1 < s.length),
      orders.indexOf (s.get ⟨k + 1, hk⟩) <
        orders.indexOf (s.get ⟨k, Nat.lt_of_succ_lt hk⟩) := by
    intro k hk
    have hne : s.get ⟨k + 1, hk⟩ ≠ -1 := by
      have := h.nonneg _ (hmem (k + 1) hk)
      omega
    exact link_indexOf_lt orders parents h _ _ (hchain k hk) hne
  refine ⟨h0, h2, hchain, hmem, hdec, ?_, ?_, ?_⟩
  · intro k hk h1k hk1
    exact hinterior k hk h1k hk1
  · rw [hg0]; exact hu
  · rw [hg0]; exact hget

/-- Multi-leaf segments have pairwise-distinct nodes, even after the cast
to matrix coordinates. -/
lemma segment_toNat_nodup (orders parents : List ℤ) (h : TreeHyp orders parents)
    (hml : (leafNodes orders parents).length ≠ 1) (s : List ℤ)
    (hs : s ∈ getAllSegments orders parents) : (s.map Int.toNat).Nodup := by
  rcases segment_facts orders parents h hml s hs with
    ⟨h0, h2, hchain, hmem, hdec, hint, hstart, hget⟩
  have hdec2 : ∀ k1 k2 (hk1 : k1 < s.length) (hk2 : k2 < s.length), k1 < k2 →
      orders.indexOf (s.get ⟨k2, hk2⟩) < orders.indexOf (s.get ⟨k1, hk1⟩) := by
    intro k1 k2
    induction k2 with
    | zero => intro hk1 hk2 hlt; omega
    | succ k2 ih =>
      intro hk1 hk2 hlt
      have hk2b : k2 < s.length := by omega
      have hb : orders.indexOf (s.get ⟨k2 + 1, hk2⟩) < orders.indexOf (s.get ⟨k2, hk2b⟩) :=
        hdec k2 hk2
      by_cases hk12 : k1 = k2
      · subst hk12
        exact hb
      · have ha := ih hk1 hk2b (by omega)
        omega
  have hlenm : (s.map Int.toNat).length = s.length := List.length_map _ _
  refine List.nodup_iff_injective_get.mpr ?_
  intro i j hij
  have hi : (i : ℕ) < s.length := by omega
  have hj : (j : ℕ) < s.length := by omega
  have hgi : (s.map Int.toNat).get i = (s.get ⟨(i : ℕ), hi⟩).toNat := by
    simp [List.get_eq_getElem, List.getElem_map]
  have hgj : (s.map Int.toNat).get j = (s.get ⟨(j : ℕ), hj⟩).toNat := by
    simp [List.get_eq_getElem, List.getElem_map]
  rw [hgi, hgj] at hij
  have hi0 := h.nonneg _ (hmem (i : ℕ) hi)
  have hj0 := h.nonneg _ (hmem (j : ℕ) hj)
  have hab : s.get ⟨(i : ℕ), hi⟩ = s.get ⟨(j : ℕ), hj⟩ := by omega
  rcases Nat.lt_trichotomy (i : ℕ) (j : ℕ) with hlt | heq | hgt
  · have hcon := hdec2 (i : ℕ) (j : ℕ) hi hj hlt
    rw [hab] at hcon
    exact absurd hcon (lt_irrefl _)
  · exact Fin.ext heq
  · have hcon := hdec2 (j : ℕ) (i : ℕ) hj hi hgt
    rw [hab] at hcon
    exact absurd hcon (lt_irrefl _)

/-- The full traversal also has pairwise-distinct coordinates. -/
lemma orders_toNat_nodup (orders parents : List ℤ) (h : TreeHyp orders parents) :
    (orders.map Int.toNat).Nodup := by
  refine List.Nodup.map_on ?_ h.nodup
  intro x hx y hy hxy
  have hx0 := h.nonneg x hx
  have hy0 := h.nonneg y hy
  omega

/-- Two multi-leaf segments that meet at interior-linked positions agree
position by position all the way back to the later start. -/
lemma chains_sync (orders parents : List ℤ) (h : TreeHyp orders parents)
    (hml : (leafNodes orders parents).length ≠ 1)
    (s s2 : List ℤ) (hs : s ∈ getAllSegments orders parents)
    (hs2 : s2 ∈ getAllSegments orders parents)
    (k k2 : ℕ) (hk : k + 1 < s.length) (hk2 : k2 + 1 < s2.length)
    (heq : s.get ⟨k, Nat.lt_of_succ_lt hk⟩ = s2.get ⟨k2, Nat.lt_of_succ_lt hk2⟩) :
    ∀ m (hm1 : m ≤ k) (hm2 : m ≤ k2),
      s.get ⟨k - m, by omega⟩ = s2.get ⟨k2 - m, by omega⟩ := by
  rcases segment_facts orders parents h hml s hs with
    ⟨h0, hlen2, hchain, hmem, -, hint, -, -⟩
  rcases segment_facts orders parents h hml s2 hs2 with
    ⟨h02, hlen22, hchain2, hmem2, -, hint2, -, -⟩
  intro m
  induction m with
  | zero =>
    intro hm1 hm2
    exact heq
  | succ m ih =>
    intro hm1 hm2
    have hzs := ih (by omega) (by omega)
    have hkm : k - m < s.length := by omega
    have hk2m : k2 - m < s2.length := by omega
    have hlk : (k - m - 1) + 1 < s.length := by omega
    have hlk2 : (k2 - m - 1) + 1 < s2.length := by omega
    have hl1 := hchain (k - m - 1) hlk
    have hl2 := hchain2 (k2 - m - 1) hlk2
    have hz1 : s.get ⟨(k - m - 1) + 1, hlk⟩ = s.get ⟨k - m, hkm⟩ :=
      congrArg s.get (Fin.ext (show (k - m - 1) + 1 = k - m by omega))
    have hz2 : s2.get ⟨(k2 - m - 1) + 1, hlk2⟩ = s2.get ⟨k2 - m, hk2m⟩ :=
      congrArg s2.get (Fin.ext (show (k2 - m - 1) + 1 = k2 - m by omega))
    have hzs2 : s.get ⟨k - m, by omega⟩ = s2.get ⟨k2 - m, hk2m⟩ := hzs
    rw [hz1] at hl1
    rw [hz2, ← hzs2] at hl2
    have hznotend : s.get ⟨k - m, hkm⟩ ∉ endNodes orders parents :=
      hint (k - m) hkm (by omega) (by omega)
    have hzo : s.get ⟨k - m, hkm⟩ ∈ orders := hmem (k - m) hkm
    have hzne : s.get ⟨k - m, hkm⟩ ≠ -1 := by
      have := h.nonneg _ hzo
      omega
    have hznotbif : ¬ IsBifurcation parents (s.get ⟨k - m, hkm⟩) := by
      intro hb
      exact hznotend ((mem_endNodes_iff orders parents h.nodup h.len_eq _).mpr (Or.inl hb))
    have hcount : parents.count (s.get ⟨k - m, hkm⟩) ≤ 1 := by
      by_contra hc
      push_neg at hc
      exact hznotbif ⟨hc, hzne⟩
    rcases isParentOf_of_buildDict orders parents _ _ hl1 with ⟨i1, hio1, hip1, hgo1, hgp1⟩
    rcases isParentOf_of_buildDict orders parents _ _ hl2 with ⟨i2, hio2, hip2, hgo2, hgp2⟩
    have hi12 : i1 = i2 := by
      by_contra hne
      have := two_le_count_of_get parents (s.get ⟨k - m, hkm⟩) i1 i2 hip1 hip2 hne hgp1 hgp2
      omega
    calc s.get ⟨k - (m + 1), by omega⟩
        = orders.get ⟨i1, hio1⟩ := by
          rw [hgo1]
          exact congrArg s.get (Fin.ext (show k - (m + 1) = k - m - 1 by omega))
      _ = orders.get ⟨i2, hio2⟩ := congrArg orders.get (Fin.ext hi12)
      _ = s2.get ⟨k2 - (m + 1), by omega⟩ := by
          rw [hgo2]
          exact congrArg s2.get (Fin.ext (show k2 - m - 1 = k2 - (m + 1) by omega))

/-- The shared edge position of two synced segments cannot sit deeper in the
second segment: the start of the first would be an interior node of the
second. -/
lemma segment_sync_not_lt (orders parents : List ℤ) (h : TreeHyp orders parents)
    (hml : (leafNodes orders parents).length ≠ 1)
    (s s2 : List ℤ) (hs : s ∈ getAllSegments orders parents)
    (hs2 : s2 ∈ getAllSegments orders parents)
    (k k2 : ℕ) (hk : k + 1 < s.length) (hk2 : k2 + 1 < s2.length)
    (heq : s.get ⟨k, Nat.lt_of_succ_lt hk⟩ = s2.get ⟨k2, Nat.lt_of_succ_lt hk2⟩) :
    ¬ k < k2 := by
  intro hlt
  rcases segment_facts orders parents h hml s hs with
    ⟨h0, -, -, -, -, -, hstart, -⟩
  rcases segment_facts orders parents h hml s2 hs2 with
    ⟨h02, -, hchain2, -, -, hint2, -, -⟩
  have hsync := chains_sync orders parents h hml s s2 hs hs2 k k2 hk hk2 heq k le_rfl (by omega)
  have hk2k : k2 - k < s2.length := by omega
  have hu : s.get ⟨0, h0⟩ = s2.get ⟨k2 - k, hk2k⟩ := by
    calc s.get ⟨0, h0⟩
        = s.get ⟨k - k, by omega⟩ := congrArg s.get (Fin.ext (show 0 = k - k by omega))
      _ = s2.get ⟨k2 - k, by omega⟩ := hsync
      _ = s2.get ⟨k2 - k, hk2k⟩ := rfl
  rcases (mem_startNodes_iff orders parents _).mp hstart with hleaf | hbif
  · have hlk : (k2 - k - 1) + 1 < s2.length := by omega
    have hl := hchain2 (k2 - k - 1) hlk
    have hz : s2.get ⟨(k2 - k - 1) + 1, hlk⟩ = s2.get ⟨k2 - k, hk2k⟩ :=
      congrArg s2.get (Fin.ext (show (k2 - k - 1) + 1 = k2 - k by omega))
    rw [hz, ← hu] at hl
    rcases isParentOf_of_buildDict orders parents _ _ hl with ⟨i, hio, hip, hgo, hgp⟩
    exact hleaf.2 (hgp ▸ List.get_mem _ _ _)
  · have hnotend := hint2 (k2 - k) hk2k (by omega) (by omega)
    rw [← hu] at hnotend
    exact hnotend ((mem_endNodes_iff orders parents h.nodup h.len_eq _).mpr (Or.inl hbif))

/-- Two multi-leaf segments sharing an edge in the same orientation are the
same segment. -/
lemma segment_edge_unique (orders parents : List ℤ) (h : TreeHyp orders parents)
    (hml : (leafNodes orders parents).length ≠ 1)
    (s s2 : List ℤ) (hs : s ∈ getAllSegments orders parents)
    (hs2 : s2 ∈ getAllSegments orders parents)
    (k k2 : ℕ) (hk : k + 1 < s.length) (hk2 : k2 + 1 < s2.length)
    (heq : s.get ⟨k, Nat.lt_of_succ_lt hk⟩ = s2.get ⟨k2, Nat.lt_of_succ_lt hk2⟩) :
    s2 = s := by
  have hn1 := segment_sync_not_lt orders parents h hml s s2 hs hs2 k k2 hk hk2 heq
  have hn2 := segment_sync_not_lt orders parents h hml s2 s hs2 hs k2 k hk2 hk heq.symm
  have hkk : k = k2 := by omega
  subst hkk
  have hsync := chains_sync orders parents h hml s s2 hs hs2 k k hk hk2 heq k le_rfl le_rfl
  rcases segment_facts orders parents h hml s hs with ⟨h0, -, -, -, -, -, -, hget⟩
  rcases segment_facts orders parents h hml s2 hs2 with ⟨h02, -, -, -, -, -, -, hget2⟩
  have hu : s.get ⟨0, h0⟩ = s2.get ⟨0, h02⟩ := by
    calc s.get ⟨0, h0⟩
        = s.get ⟨k - k, by omega⟩ := congrArg s.get (Fin.ext (show 0 = k - k by omega))
      _ = s2.get ⟨k - k, by omega⟩ := hsync
      _ = s2.get ⟨0, h02⟩ := congrArg s2.get (Fin.ext (show k - k = 0 by omega))
  rw [← hu] at hget2
  exact Option.some.inj (hget2.symm.trans hget)

/-- No edge of a different multi-leaf segment touches the coordinate pair of
a given segment edge. -/
lemma other_segment_no_touch (orders parents : List ℤ) (h : TreeHyp orders parents)
    (hml : (leafNodes orders parents).length ≠ 1)
    (s : List ℤ) (hs : s ∈ getAllSegments orders parents)
    (k : ℕ) (hk : k + 1 < s.length)
    (s2 : List ℤ) (hs2 : s2 ∈ getAllSegments orders parents) (hne : s2 ≠ s)
    (e : ℤ × ℤ) (he : e ∈ getEdges s2) :
    ¬ touchesPair e (s.get ⟨k, Nat.lt_of_succ_lt hk⟩).toNat (s.get ⟨k + 1, hk⟩).toNat := by
  intro ht
  rcases consecutivePairs_mem s2 e he with ⟨k2, hk2, hev⟩
  rcases segment_facts orders parents h hml s hs with ⟨-, -, hchain, hmem, -, -, -, -⟩
  rcases segment_facts orders parents h hml s2 hs2 with ⟨-, -, hchain2, hmem2, -, -, -, -⟩
  have ha0 := h.nonneg _ (hmem k (Nat.lt_of_succ_lt hk))
  have hb0 := h.nonneg _ (hmem (k + 1) hk)
  have hc0 := h.nonneg _ (hmem2 k2 (Nat.lt_of_succ_lt hk2))
  have hd0 := h.nonneg _ (hmem2 (k2 + 1) hk2)
  rw [hev] at ht
  rcases ht with ⟨h1, h2⟩ | ⟨h1, h2⟩
  · have heq : s.get ⟨k, Nat.lt_of_succ_lt hk⟩ = s2.get ⟨k2, Nat.lt_of_succ_lt hk2⟩ := by
      omega
    exact hne (segment_edge_unique orders parents h hml s s2 hs hs2 k k2 hk hk2 heq)
  · have heq1 : s2.get ⟨k2, Nat.lt_of_succ_lt hk2⟩ = s.get ⟨k + 1, hk⟩ := by omega
    have heq2 : s2.get ⟨k2 + 1, hk2⟩ = s.get ⟨k, Nat.lt_of_succ_lt hk⟩ := by omega
    have hl1 := hchain k hk
    have hl2 := hchain2 k2 hk2
    rw [heq1, heq2] at hl2
    have hne1 : s.get ⟨k + 1, hk⟩ ≠ -1 := by omega
    have hne2 : s.get ⟨k, Nat.lt_of_succ_lt hk⟩ ≠ -1 := by omega
    have hd1 := link_indexOf_lt orders parents h _ _ hl1 hne1
    have hd2 := link_indexOf_lt orders parents h _ _ hl2 hne2
    omega

/-- C7: in a successful run on a well-formed tree, for every segment and
each of its edge pairs `(r, c)`: if the segment's forward and reversed
cumulative scores are exactly equal, the returned array keeps both original
undirected values at `(r, c)` and `(c, r)`; if the scores differ, the
winning oriented entry is the maximum of the two symmetric weights and the
losing entry is `0`. -/
theorem segment_tie_keeps_edges_and_winner_takes_max (adata : Adata) (key : String)
    (d : Mat) (tm : MatInput) (co : CellOrder) (R : Mat) (corder cparent : List ℤ)
    (w : Mat) (parents : List ℤ)
    (h1 : lookupStr adata.obsp (key ++ "_transition_matrix") = some tm)
    (h2 : adata.cellOrder = some co) (h3 : co.R = some R)
    (h4 : co.centers_order = some corder) (h5 : co.centers_parent = some cparent)
    (h6 : co.centers_minSpanningTree = some w)
    (hpar : parentsOf cparent (argsort corder) = some parents)
    (htree : TreeHyp (argsort corder) parents)
    (hok : (constructVelocityTree adata key).1 = Except.ok d)
    (s : List ℤ) (hs : s ∈ getAllSegments (argsort corder) parents)
    (k : ℕ) (hk : k + 1 < s.length) (u v : ℕ)
    (hu : u = (s.get ⟨k, Nat.lt_of_succ_lt hk⟩).toNat)
    (hv : v = (s.get ⟨k + 1, hk⟩).toNat) :
    (segSum (computeCenterTransitionMatrix tm R) s =
        segSum (computeCenterTransitionMatrix tm R) s.reverse →
      d.entry u v = w.entry u v ∧ d.entry v u = w.entry v u) ∧
    (segSum (computeCenterTransitionMatrix tm R) s.reverse <
        segSum (computeCenterTransitionMatrix tm R) s →
      d.entry u v = max (w.entry u v) (w.entry v u) ∧ d.entry v u = 0) ∧
    (segSum (computeCenterTransitionMatrix tm R) s <
        segSum (computeCenterTransitionMatrix tm R) s.reverse →
      d.entry v u = max (w.entry u v) (w.entry v u) ∧ d.entry u v = 0) := by
  obtain ⟨tm2, co2, R2, corder2, cparent2, w2, parents2, g1, g2, g3, g4, g5, g6, g7, g8⟩ :=
    constructVelocityTree_ok_inv adata key d hok
  have htm : tm = tm2 := Option.some.inj (h1.symm.trans g1)
  have hco : co = co2 := Option.some.inj (h2.symm.trans g2)
  subst htm
  subst hco
  have hR : R = R2 := Option.some.inj (h3.symm.trans g3)
  have hcorder : corder = corder2 := Option.some.inj (h4.symm.trans g4)
  have hcparent : cparent = cparent2 := Option.some.inj (h5.symm.trans g5)
  have hw : w = w2 := Option.some.inj (h6.symm.trans g6)
  subst hR
  subst hcorder
  subst hcparent
  subst hw
  have hparents : parents = parents2 := Option.some.inj (hpar.symm.trans g7)
  subst hparents
  have hnd : (s.map Int.toNat).Nodup := by
    by_cases hone : (leafNodes (argsort corder) parents).length = 1
    · have hseg1 : getAllSegments (argsort corder) parents = [argsort corder] := by
        rw [getAllSegments, if_pos hone]
      rw [hseg1] at hs
      rw [List.mem_singleton.mp hs]
      exact orders_toNat_nodup (argsort corder) parents htree
    · exact segment_toNat_nodup (argsort corder) parents htree hone s hs
  rcases mem_split_last s (getAllSegments (argsort corder) parents) hs with ⟨A, B, hAB, hsB⟩
  rw [hAB] at g8
  rcases processSegments_append _ _ A (s :: B) _ _ g8 with ⟨d1, -, g9⟩
  rcases hap : applySegment (computeCenterTransitionMatrix tm R) w d1 s with _ | d2
  · rw [processSegments, hap] at g9
    exact Option.noConfusion g9
  rw [processSegments, hap] at g9
  have hnt : ∀ s2 ∈ B, ∀ e ∈ getEdges s2, ¬ touchesPair e u v := by
    intro s2 hs2B e he
    have hs2 : s2 ∈ getAllSegments (argsort corder) parents := by
      rw [hAB]
      exact List.mem_append_right _ (List.mem_cons_of_mem _ hs2B)
    have hs2ne : s2 ≠ s := fun hcon => hsB (hcon ▸ hs2B)
    by_cases hone : (leafNodes (argsort corder) parents).length = 1
    · exfalso
      have hseg1 : getAllSegments (argsort corder) parents = [argsort corder] := by
        rw [getAllSegments, if_pos hone]
      rw [hseg1] at hs hs2
      exact hs2ne ((List.mem_singleton.mp hs2).trans (List.mem_singleton.mp hs).symm)
    · rw [hu, hv]
      exact other_segment_no_touch (argsort corder) parents htree hone s hs k hk s2 hs2
        hs2ne e he
  have hfinal := processSegments_untouched (computeCenterTransitionMatrix tm R) w u v B
    d2 d g9 hnt
  have hent := applySegment_entries (computeCenterTransitionMatrix tm R) w d1 s hnd d2 hap
    k hk u v hu hv
  refine ⟨?_, ?_, ?_⟩
  · intro hT
    have hw2 := hent.2.2 hT
    exact ⟨hfinal.1.trans hw2.1, hfinal.2.trans hw2.2⟩
  · intro hT
    have hw2 := hent.1 hT
    exact ⟨hfinal.1.trans hw2.1, hfinal.2.trans hw2.2⟩
  · intro hT
    have hw2 := hent.2.1 hT
    exact ⟨hfinal.2.trans hw2.1, hfinal.1.trans hw2.2⟩

/-- Witness for C7: on the concrete tied run the returned array keeps both
original entries of the single segment edge. -/
theorem segment_tie_keeps_edges_witness :
    D5.entry 0 1 = W5.entry 0 1 ∧ D5.entry 1 0 = W5.entry 1 0 :=
  (segment_tie_keeps_edges_and_winner_takes_max A5 "pearson" D5 T0 CO5 R5 [0, 1] [-1, 0]
      W5 [-1, 0] rfl rfl rfl rfl rfl rfl (by decide)
      ⟨by decide, by decide, by decide, by decide, by decide⟩
      (by rw [cvtA5_eval]) [0, 1] (by decide) 0 (by decide) 0 1 (by decide) (by decide)).1
    (by
      have hr : ([(0 : ℤ), 1] : List ℤ).reverse = [(1 : ℤ), 0] := by decide
      rw [hr, segSum5 0 1, segSum5 1 0])
